import Mathlib

/-!
Verification development for the rustchess engine backend (crate `unchess_lib`).

The definitions below are a shallow embedding of the Rust sources, chiefly
`src/unchess_lib/src/board/piece_list.rs`, `src/unchess_lib/src/board/bitboard.rs`,
`src/unchess_lib/src/parser/fen.rs` and `src/unchess_lib/src/parser/pgn.rs`.
Rust `Result<T, ChessError>` values are embedded as `Except RErr T`; a Rust
panic (a failed `assert!` or an `unwrap()` of an error value) is embedded as
the distinguished error `RErr.panicErr`, so that panics are observable.
Machine integers (`u8`, `u32`, `i8`, `usize`) are embedded as `Nat`/`Int`;
none of the embedded operations can overflow their Rust types on the values
reached here except where noted (the `u32` FEN field parser checks its bound
explicitly, mirroring nom's checked `u32` combinator).
-/

/-- Colour of piece (enums.rs).  Black is declared before White, which fixes
the derived `Ord` used by `sort_unstable` in `hash_board_state`. -/
inductive PieceColour
  | Black
  | White
deriving DecidableEq

/-- Rust `impl Not for PieceColour`. -/
def PieceColour.flip : PieceColour → PieceColour
  | .Black => .White
  | .White => .Black

/-- Type of piece (enums.rs), in declaration order (fixes derived `Ord`). -/
inductive PieceKind
  | King
  | Queen
  | Bishop
  | Knight
  | Rook
  | Pawn
deriving DecidableEq

/-- Basic states of board based on king safety (enums.rs). -/
inductive BoardState
  | Normal
  | Check
  | Stalemate
  | Checkmate
deriving DecidableEq

/-- Action caused by move (enums.rs). -/
inductive MoveAction
  | Check
  | Checkmate
deriving DecidableEq

/-- Rust `impl From<MoveAction> for BoardState`. -/
def MoveAction.toBoardState : MoveAction → BoardState
  | .Check => .Check
  | .Checkmate => .Checkmate

/-- Side to castle on (enums.rs). -/
inductive CastlingSide
  | KingSide
  | QueenSide
deriving DecidableEq

/-- Chess square (simple_types.rs): two `u8` fields.  The Rust constructor
`SimpleSquare::new` asserts both coordinates lie in `0..=7`; that check is
embedded separately as `SimpleSquare.new` below. -/
structure SimpleSquare where
  file : Nat
  rank : Nat
deriving DecidableEq

/-- Chess move from src to dest (simple_types.rs).  `SimpleMove::new` asserts
`src != dest`; that check is embedded separately as `SimpleMove.new`. -/
structure SimpleMove where
  src : SimpleSquare
  dest : SimpleSquare
  promote_to : Option PieceKind
deriving DecidableEq

/-- Simple minimum piece type (simple_types.rs). -/
structure SimplePiece where
  kind : PieceKind
  colour : PieceColour
deriving DecidableEq

/-- Ambiguous move, pgn standard (enums.rs). -/
inductive AmbiguousMove
  | Normal (piece_kind : PieceKind) (src_file : Option Nat) (src_rank : Option Nat)
      (takes : Bool) (dest : SimpleSquare) (promote_to : Option PieceKind)
      (action : Option MoveAction)
  | Castle (side : CastlingSide)
deriving DecidableEq

/-- The `ChessError` variants referenced by the current `unchess_lib` code
(`piece_list.rs`, `traits.rs`, `notation.rs`).  The checked-in `error.rs` is a
stale file from an earlier crate layout, so the variant payloads that no code
path inspects (the formatted message of `InvalidBoard`, the strings of
`InvalidFEN`/`InvalidPGN`) are dropped; `PieceNotFound`, `IllegalMove`,
`ImpossibleMove` and `AmbiguousMove` keep their structured payloads, which the
code does construct and (for `PieceNotFound`) match on.  The Rust variant
`ChessError::AmbiguousMove` is spelled `AmbiguousMoveErr` here to avoid
shadowing the `AmbiguousMove` type inside the declaration. -/
inductive ChessError
  | PieceNotFound (sq : SimpleSquare)
  | InvalidBoard
  | IllegalMove (m : SimpleMove)
  | ImpossibleMove (m : AmbiguousMove)
  | AmbiguousMoveErr (m : AmbiguousMove)
  | NotAction
  | InvalidFEN
  | InvalidPGN
  | InvalidFile
  | InvalidRank
deriving DecidableEq

/-- Result-or-panic outcome of embedded Rust code: `chess e` embeds
`Err(e) : Result<_, ChessError>`, and `panicErr` embeds a Rust panic. -/
inductive RErr
  | panicErr
  | chess (e : ChessError)
deriving DecidableEq

/-- Computation monad for the embedded code. -/
abbrev RM (α : Type) : Type := Except RErr α

instance (ε α : Type) [DecidableEq ε] [DecidableEq α] : DecidableEq (Except ε α) := fun x y =>
  match x, y with
  | .ok a, .ok b => if h : a = b then .isTrue (by rw [h]) else .isFalse (by simp [h])
  | .error a, .error b => if h : a = b then .isTrue (by rw [h]) else .isFalse (by simp [h])
  | .ok _, .error _ => .isFalse (by simp)
  | .error _, .ok _ => .isFalse (by simp)

/-- Embeds `SimpleSquare::new`, whose asserts panic when a coordinate is
outside `0..=7`. -/
def SimpleSquare.new (file rank : Nat) : RM SimpleSquare :=
  if file ≤ 7 then
    if rank ≤ 7 then .ok ⟨file, rank⟩ else .error .panicErr
  else .error .panicErr

/-- Embeds `SimpleMove::new`, whose assert panics when `src = dest`. -/
def SimpleMove.new (src dest : SimpleSquare) (promote_to : Option PieceKind) : RM SimpleMove :=
  if src = dest then .error .panicErr else .ok ⟨src, dest, promote_to⟩

/-- Offset between two chess squares (piece_list.rs), two `i8` fields. -/
structure SquareOffset where
  file : Int
  rank : Int
deriving DecidableEq

/-- Rust `impl Div<i8> for SquareOffset`; `i8` division truncates toward
zero, which is `Int.tdiv`. -/
def SquareOffset.divI (o : SquareOffset) (rhs : Int) : SquareOffset :=
  ⟨o.file.tdiv rhs, o.rank.tdiv rhs⟩

/-- Rust `impl Mul<PieceColour> for SquareOffset`: negates the rank for
Black so pawn geometry tables are written once. -/
def SquareOffset.mulC (o : SquareOffset) (rhs : PieceColour) : SquareOffset :=
  match rhs with
  | .White => o
  | .Black => ⟨o.file, -o.rank⟩

/-- Rust `SquareOffset::would_overflow`. -/
def SquareOffset.would_overflow (o : SquareOffset) (square : SimpleSquare) : Bool :=
  decide (-o.file > (square.file : Int)) || decide (o.file > 7 - (square.file : Int)) ||
    decide (-o.rank > (square.rank : Int)) || decide (o.rank > 7 - (square.rank : Int))

/-- Rust `impl Add<SquareOffset> for SimpleSquare`: asserts the offset file
and rank stay nonnegative, then `SimpleSquare::new` asserts the upper bound;
all three failing asserts are panics. -/
def SimpleSquare.addOff (sq : SimpleSquare) (rhs : SquareOffset) : RM SimpleSquare :=
  let file : Int := (sq.file : Int) + rhs.file
  let rank : Int := (sq.rank : Int) + rhs.rank
  if file < 0 then .error .panicErr
  else if rank < 0 then .error .panicErr
  else SimpleSquare.new file.toNat rank.toNat

/-- Rust `impl Sub for SimpleSquare` producing a `SquareOffset`. -/
def SimpleSquare.subSq (a b : SimpleSquare) : SquareOffset :=
  ⟨(a.file : Int) - (b.file : Int), (a.rank : Int) - (b.rank : Int)⟩

/-- Chess piece representation of the piece list (piece_list.rs): position
plus kind and colour.  Field order fixes the derived `Ord` used by
`hash_board_state` (square, then kind, then colour). -/
structure ChessPiece where
  square : SimpleSquare
  kind : PieceKind
  colour : PieceColour
deriving DecidableEq

/-- The `is_starting_rank` test used on a square by `pawn_moves`.
Modelled from the spec: the `SimpleSquare::is_starting_rank` method invoked at
piece_list.rs line 510 is not in the snapshot (only the `ChessPiece` variant
is); the spec says the double push requires "src rank equals the colour's
starting rank (White = 1, Black = 6)", matching the `ChessPiece` variant. -/
def SimpleSquare.is_starting_rank (sq : SimpleSquare) (colour : PieceColour) : Bool :=
  match colour with
  | .White => sq.rank == 1
  | .Black => sq.rank == 6

/-- Numeric key for the derived `Ord` on `PieceKind` (declaration order). -/
def PieceKind.ordKey : PieceKind → Nat
  | .King => 0
  | .Queen => 1
  | .Bishop => 2
  | .Knight => 3
  | .Rook => 4
  | .Pawn => 5

/-- Numeric key for the derived `Ord` on `PieceColour` (Black before White). -/
def PieceColour.ordKey : PieceColour → Nat
  | .Black => 0
  | .White => 1

/-- The derived lexicographic `Ord` on `ChessPiece` (square file, square rank,
kind, colour), as a boolean `≤`. -/
def ChessPiece.leP (a b : ChessPiece) : Bool :=
  if a.square.file ≠ b.square.file then a.square.file < b.square.file
  else if a.square.rank ≠ b.square.rank then a.square.rank < b.square.rank
  else if a.kind.ordKey ≠ b.kind.ordKey then a.kind.ordKey < b.kind.ordKey
  else a.colour.ordKey ≤ b.colour.ordKey

/-- Insertion step for `sortPieces`. -/
def insertPiece (p : ChessPiece) : List ChessPiece → List ChessPiece
  | [] => [p]
  | q :: rest => if p.leP q then p :: q :: rest else q :: insertPiece p rest

/-- Embeds `pieces.sort_unstable()` in `hash_board_state`.  `ChessPiece.leP`
is a total order whose equal elements are structurally equal, so every
correct sort (in particular Rust's unstable sort) produces this output. -/
def sortPieces : List ChessPiece → List ChessPiece
  | [] => []
  | p :: rest => insertPiece p (sortPieces rest)

/-- Castling rights array `[bool; 4]` indexed as
`[white-kingside, white-queenside, black-kingside, black-queenside]`. -/
structure CastlingRights where
  r0 : Bool
  r1 : Bool
  r2 : Bool
  r3 : Bool
deriving DecidableEq

/-- Array read `castling_rights[i]`.  All indices produced by the code are in
`0..=3`, so the Rust out-of-bounds panic is unreachable. -/
def CastlingRights.get (c : CastlingRights) : Nat → Bool
  | 0 => c.r0
  | 1 => c.r1
  | 2 => c.r2
  | _ => c.r3

/-- Array write `castling_rights[i] = v`. -/
def CastlingRights.set (c : CastlingRights) (i : Nat) (v : Bool) : CastlingRights :=
  match i with
  | 0 => { c with r0 := v }
  | 1 => { c with r1 := v }
  | 2 => { c with r2 := v }
  | _ => { c with r3 := v }

/-- The data hashed by `hash_board_state`: sorted pieces, turn, castling
rights and en passant.  Modelled from the spec where the hash function itself
is concerned: `std::hash::DefaultHasher` is external to the repository, so
the digest is embedded as the hashed tuple itself; the spec requires exactly
that the digest cover "placement, side to move, castling rights, and
en-passant target". -/
structure Digest where
  pieces : List ChessPiece
  turn : PieceColour
  castling_rights : CastlingRights
  en_passant : Option SimpleSquare
deriving DecidableEq

/-- Piece list representation of chess board (piece_list.rs). -/
structure Board where
  pieces : List ChessPiece
  turn : PieceColour
  en_passant : Option SimpleSquare
  castling_rights : CastlingRights
  halfmove_clock : Nat
  fullmove_number : Nat
  board_history : List Digest
deriving DecidableEq

/-- Rust `ChessBoard::hash_board_state`: clones and sorts the piece list and
hashes it together with turn, castling rights and en passant. -/
def Board.hash_board_state (b : Board) : Digest :=
  ⟨sortPieces b.pieces, b.turn, b.castling_rights, b.en_passant⟩

/-- Rust `ChessBoard::get_piece`: filters the piece list by square and
applies `at_most_one` (none is `PieceNotFound`, two or more is
`InvalidBoard`). -/
def Board.get_piece (b : Board) (square : SimpleSquare) : RM ChessPiece :=
  match b.pieces.filter (fun p => p.square == square) with
  | [] => .error (.chess (.PieceNotFound square))
  | [p] => .ok p
  | _ => .error (.chess .InvalidBoard)

/-- Index-returning version of `ChessBoard::get_piece_mut`: the unique index
of the piece on `square` (same `at_most_one` error behaviour). -/
def Board.get_piece_idx (b : Board) (square : SimpleSquare) : RM Nat :=
  match (b.pieces.enum.filter (fun pi => pi.2.square == square)) with
  | [] => .error (.chess (.PieceNotFound square))
  | [pi] => .ok pi.1
  | _ => .error (.chess .InvalidBoard)

/-- KINGSIDE, QUEENSIDE and the per-colour offset constants of
`impl ChessBoard` (piece_list.rs). -/
def castling_right_offset : PieceColour → Nat
  | .Black => 2
  | .White => 0

/-- Rust `ChessBoard::update_castling_rights` (piece_list.rs lines 481-496):
called with the moved piece as it stands after the move (promotion applied),
it matches on the piece kind and the source file of the move. -/
def Board.update_castling_rights (b : Board) (piece : ChessPiece) (chess_move : SimpleMove) :
    Board :=
  let castling_offset := castling_right_offset piece.colour
  match piece.kind with
  | .King =>
      { b with castling_rights :=
          ((b.castling_rights.set (castling_offset + 0) false).set (castling_offset + 1) false) }
  | .Rook =>
      if chess_move.src.file == 0 then
        { b with castling_rights := b.castling_rights.set (castling_offset + 1) false }
      else if chess_move.src.file == 7 then
        { b with castling_rights := b.castling_rights.set (castling_offset + 0) false }
      else b
  | _ => b

/-- Rust `ChessBoard::castle_rook`: if the king just moved two files, move
the rook as well (its absence surfaces as `PieceNotFound`). -/
def Board.castle_rook (b : Board) (piece : ChessPiece) (offset : SquareOffset) : RM Board := do
  let b ← do
    if piece.kind == .King && offset.file == 2 then
      let rookSq ← piece.square.addOff ⟨1, 0⟩
      let newSq ← piece.square.addOff ⟨-1, 0⟩
      let i ← b.get_piece_idx rookSq
      pure { b with pieces := b.pieces.modify (fun r => { r with square := newSq }) i }
    else pure b
  if piece.kind == .King && offset.file == -2 then
    let rookSq ← piece.square.addOff ⟨-2, 0⟩
    let newSq ← piece.square.addOff ⟨1, 0⟩
    let i ← b.get_piece_idx rookSq
    pure { b with pieces := b.pieces.modify (fun r => { r with square := newSq }) i }
  else pure b

/-- Rust `ChessBoard::en_passant_target`: if the move was en passant, the
square of the pawn to take (one rank behind the moved pawn). -/
def Board.en_passant_target (b : Board) (piece : ChessPiece) (offset : SquareOffset) :
    RM (Option SimpleSquare) :=
  match b.en_passant with
  | some en_passant =>
      if piece.kind == .Pawn && piece.square == en_passant then do
        let sq ← piece.square.addOff ⟨0, -offset.rank⟩
        pure (some sq)
      else pure none
  | none => pure none

/-- Rust `ChessBoard::take_en_passant`: removes the bypassed pawn of an
en-passant capture (its absence surfaces as `InvalidBoard`). -/
def Board.take_en_passant (b : Board) (piece : ChessPiece) (offset : SquareOffset) : RM Board := do
  match ← b.en_passant_target piece offset with
  | some taken_pawn_square =>
      match b.pieces.findIdx? (fun p => p.square == taken_pawn_square) with
      | some taken_pawn => pure { b with pieces := b.pieces.eraseIdx taken_pawn }
      | none => .error (.chess .InvalidBoard)
  | none => pure b

/-- The default piece used when reading back the unique index found by
`get_piece_idx` (never returned: the index is always in range). -/
def defaultPiece : ChessPiece := ⟨⟨0, 0⟩, .Pawn, .White⟩

/-- Rust `ChessBoard::move_piece` (piece_list.rs lines 196-236), step by
step: record the captured index, bump the halfmove clock, push the digest,
move (and possibly promote) the source piece, remove the captured piece and
reset the clock, reset the clock on pawn moves, move the castling rook, take
the en-passant pawn, set or clear the en-passant target, update castling
rights, flip the turn and bump the fullmove number after Black's move. -/
def Board.move_piece (b : Board) (chess_move : SimpleMove) : RM Board := do
  let taken_piece := b.pieces.findIdx? (fun p => p.square == chess_move.dest)
  let b := { b with halfmove_clock := b.halfmove_clock + 1 }
  let b := { b with board_history := b.board_history ++ [b.hash_board_state] }
  let i ← b.get_piece_idx chess_move.src
  let piece0 := b.pieces.getD i defaultPiece
  let piece : ChessPiece := ⟨chess_move.dest, chess_move.promote_to.getD piece0.kind, piece0.colour⟩
  let b := { b with pieces := b.pieces.set i piece }
  let b :=
    match taken_piece with
    | some taken_index =>
        { b with pieces := b.pieces.eraseIdx taken_index, halfmove_clock := 0 }
    | none => b
  let b := if piece.kind == .Pawn then { b with halfmove_clock := 0 } else b
  let offset := chess_move.dest.subSq chess_move.src
  let b ← b.castle_rook piece offset
  let b ← b.take_en_passant piece offset
  let b ←
    if piece.kind == .Pawn && offset.rank.natAbs == 2 then do
      let epSq ← chess_move.src.addOff (offset.divI 2)
      pure { b with en_passant := some epSq }
    else pure { b with en_passant := none }
  let b := b.update_castling_rights piece chess_move
  let b := { b with turn := b.turn.flip }
  let b :=
    if b.turn == .White then { b with fullmove_number := b.fullmove_number + 1 } else b
  pure b

example : (SimpleSquare.new 3 8) = .error .panicErr := by decide
example : ((⟨⟨4, 1⟩, .Pawn, .White⟩ : ChessPiece).leP ⟨⟨4, 2⟩, .Pawn, .White⟩) = true := by decide

/-- QUEEN_DIRECTIONS (piece_list.rs): SW, NW, SE, NE, S, N, W, E. -/
def QUEEN_DIRECTIONS : List SquareOffset :=
  [⟨-1, -1⟩, ⟨-1, 1⟩, ⟨1, -1⟩, ⟨1, 1⟩, ⟨0, -1⟩, ⟨0, 1⟩, ⟨-1, 0⟩, ⟨1, 0⟩]

/-- KNIGHT_PATTERN (piece_list.rs). -/
def KNIGHT_PATTERN : List SquareOffset :=
  [⟨-2, -1⟩, ⟨-2, 1⟩, ⟨-1, -2⟩, ⟨-1, 2⟩, ⟨1, -2⟩, ⟨1, 2⟩, ⟨2, -1⟩, ⟨2, 1⟩]

/-- KING_PATTERN = QUEEN_DIRECTIONS (piece_list.rs). -/
def KING_PATTERN : List SquareOffset := QUEEN_DIRECTIONS

/-- Rust `ChessPiece::promotions_on_square`: a pawn move reaching rank 0 or 7
expands into the four promotions (knight, queen, bishop, rook), otherwise it
stays a single move.  `SimpleMove::new`'s assert is carried through. -/
def promotions_on_square (src dest : SimpleSquare) : RM (List SimpleMove) := do
  if dest.rank == 0 || dest.rank == 7 then
    let m1 ← SimpleMove.new src dest (some .Knight)
    let m2 ← SimpleMove.new src dest (some .Queen)
    let m3 ← SimpleMove.new src dest (some .Bishop)
    let m4 ← SimpleMove.new src dest (some .Rook)
    pure [m1, m2, m3, m4]
  else do
    let m ← SimpleMove.new src dest none
    pure [m]

/-- Rust `ChessBoard::square_empty`. -/
def Board.square_empty (b : Board) (square : SimpleSquare) : RM Bool :=
  match b.get_piece square with
  | .ok _ => .ok false
  | .error (.chess (.PieceNotFound _)) => .ok true
  | .error e => .error e

/-- Rust `ChessBoard::square_takeable`: empty or holding an opponent piece. -/
def Board.square_takeable (b : Board) (colour : PieceColour) (target_square : SimpleSquare) :
    RM Bool :=
  match b.get_piece target_square with
  | .ok other_piece => .ok (other_piece.colour ≠ colour)
  | .error (.chess (.PieceNotFound _)) => .ok true
  | .error e => .error e

/-- Body of the `for take in takes` loop of `ChessBoard::pawn_moves`. -/
def Board.pawn_take_moves (b : Board) (square : SimpleSquare) (colour : PieceColour) :
    List SimpleSquare → RM (List SimpleMove)
  | [] => pure []
  | take :: rest => do
      let here ←
        match b.en_passant, b.get_piece take with
        | _, .ok other_piece =>
            if other_piece.colour ≠ colour then promotions_on_square square take
            else pure []
        | some en_passant, .error (.chess (.PieceNotFound _)) =>
            if en_passant == take then do
              let m ← SimpleMove.new square take none
              pure [m]
            else pure []
        | none, .error (.chess (.PieceNotFound _)) => pure []
        | _, .error e => .error e
      let more ← b.pawn_take_moves square colour rest
      pure (here ++ more)

/-- Rust `ChessBoard::pawn_moves` (piece_list.rs lines 498-527).  The single
push target is computed with the panicking square addition and no
`would_overflow` guard, so a pawn probe from rank 7 (White) or rank 0
(Black) panics. -/
def Board.pawn_moves (b : Board) (square : SimpleSquare) (colour : PieceColour) :
    RM (List SimpleMove) := do
  let single_push ← square.addOff ((⟨0, 1⟩ : SquareOffset).mulC colour)
  let takes₁ ←
    if square.file > 0 then do
      let t ← square.addOff ((⟨-1, 1⟩ : SquareOffset).mulC colour)
      pure [t]
    else pure []
  let takes₂ ←
    if square.file < 7 then do
      let t ← square.addOff ((⟨1, 1⟩ : SquareOffset).mulC colour)
      pure [t]
    else pure []
  let takes := takes₁ ++ takes₂
  let pushMoves ←
    if ← b.square_empty single_push then do
      let proms ← promotions_on_square square single_push
      if square.is_starting_rank colour then do
        let dbl ← square.addOff ((⟨0, 2⟩ : SquareOffset).mulC colour)
        if ← b.square_empty dbl then do
          let dbl' ← square.addOff ((⟨0, 2⟩ : SquareOffset).mulC colour)
          let m ← SimpleMove.new square dbl' none
          pure (proms ++ [m])
        else pure proms
      else pure proms
    else pure []
  let takeMoves ← b.pawn_take_moves square colour takes
  pure (pushMoves ++ takeMoves)

/-- One direction of `ChessBoard::traversal_moves`: step while the offset
would not overflow, recording takeable squares and stopping at the first
occupied square.  At most seven steps are possible from any in-range square,
so the fuel of eight makes the recursion equal to the Rust `while` loop. -/
def Board.walkDir (b : Board) (square : SimpleSquare) (colour : PieceColour)
    (direction : SquareOffset) : Nat → SimpleSquare → RM (List SimpleMove)
  | 0, _ => pure []
  | fuel + 1, curr =>
    if direction.would_overflow curr then pure []
    else do
      let next ← curr.addOff direction
      let here ←
        if ← b.square_takeable colour next then do
          let m ← SimpleMove.new square next none
          pure [m]
        else pure []
      if ← b.square_empty next then do
        let rest ← b.walkDir square colour direction fuel next
        pure (here ++ rest)
      else pure here

/-- Rust `ChessBoard::traversal_moves`. -/
def Board.traversal_moves (b : Board) (square : SimpleSquare) (colour : PieceColour)
    (directions : List SquareOffset) : RM (List SimpleMove) := do
  match directions with
  | [] => pure []
  | direction :: rest => do
      let here ← b.walkDir square colour direction 8 square
      let more ← b.traversal_moves square colour rest
      pure (here ++ more)

/-- Rust `ChessBoard::offset_moves`: fixed-offset targets that are in range
and takeable. -/
def Board.offset_moves (b : Board) (square : SimpleSquare) (colour : PieceColour) :
    List SquareOffset → RM (List SimpleMove)
  | [] => pure []
  | offset :: rest => do
      let here ←
        if offset.would_overflow square then pure []
        else do
          let target_square ← square.addOff offset
          if ← b.square_takeable colour target_square then do
            let m ← SimpleMove.new square target_square none
            pure [m]
          else pure []
      let more ← b.offset_moves square colour rest
      pure (here ++ more)

/-- Check if `squares` contains a piece of colour `colour` whose kind is in
`piece_kinds` (Rust `ChessBoard::squares_contain`, with early return). -/
def Board.squares_contain (b : Board) (colour : PieceColour) (squares : List SimpleSquare)
    (piece_kinds : List PieceKind) : RM Bool :=
  match squares with
  | [] => .ok false
  | square :: rest =>
      match b.get_piece square with
      | .ok piece =>
          if colour == piece.colour && piece_kinds.contains piece.kind then .ok true
          else b.squares_contain colour rest piece_kinds
      | .error (.chess (.PieceNotFound _)) => b.squares_contain colour rest piece_kinds
      | .error e => .error e

/-- Rust `ChessBoard::square_under_attack` (piece_list.rs lines 673-710): the
symmetric super-piece probe.  All five probes are evaluated in order (the
Rust code uses the non-short-circuiting `|=`). -/
def Board.square_under_attack (b : Board) (square : SimpleSquare) (colour : PieceColour) :
    RM Bool := do
  let diag ← b.traversal_moves square colour (QUEEN_DIRECTIONS.take 4)
  let a1 ← b.squares_contain colour.flip (diag.map (·.dest)) [.Queen, .Bishop]
  let orth ← b.traversal_moves square colour (QUEEN_DIRECTIONS.drop 4)
  let a2 ← b.squares_contain colour.flip (orth.map (·.dest)) [.Queen, .Rook]
  let kn ← b.offset_moves square colour KNIGHT_PATTERN
  let a3 ← b.squares_contain colour.flip (kn.map (·.dest)) [.Knight]
  let kg ← b.offset_moves square colour KING_PATTERN
  let a4 ← b.squares_contain colour.flip (kg.map (·.dest)) [.King]
  let pw ← b.pawn_moves square colour
  let a5 ← b.squares_contain colour.flip (pw.map (·.dest)) [.Pawn]
  pure (a1 || a2 || a3 || a4 || a5)

/-- Rust `ChessBoard::king_in_check`: requires exactly one king of `colour`
(otherwise `InvalidBoard`) and probes its square. -/
def Board.king_in_check (b : Board) (colour : PieceColour) : RM Bool :=
  match b.pieces.filter (fun p => p.kind == .King && p.colour == colour) with
  | [king] => b.square_under_attack king.square king.colour
  | _ => .error (.chess .InvalidBoard)

/-- Rust `ChessBoard::castle_moves` (piece_list.rs lines 570-611).  The
literal squares are in range, so `SimpleSquare::new` cannot panic here and
plain constructors are used. -/
def Board.castle_moves (b : Board) (colour : PieceColour) : RM (List SimpleMove) := do
  let (back_rank, castle_rights_offset) :=
    match colour with
    | PieceColour.Black => ((7 : Nat), (2 : Nat))
    | PieceColour.White => ((0 : Nat), (0 : Nat))
  let king_square : SimpleSquare := ⟨4, back_rank⟩
  let kingside_inbetween : SimpleSquare := ⟨5, back_rank⟩
  let kingside_dest : SimpleSquare := ⟨6, back_rank⟩
  let queenside_inbetween : SimpleSquare := ⟨3, back_rank⟩
  let queenside_dest : SimpleSquare := ⟨2, back_rank⟩
  let queenside_knight : SimpleSquare := ⟨1, back_rank⟩
  let kingMoves ←
    if b.castling_rights.get (castle_rights_offset + 0) then do
      let a0 ← b.square_under_attack king_square colour
      let e1 ← b.square_empty kingside_inbetween
      let a1 ← b.square_under_attack kingside_inbetween colour
      let e2 ← b.square_empty kingside_dest
      let a2 ← b.square_under_attack kingside_dest colour
      if !a0 && (e1 && !a1) && (e2 && !a2) then do
        let m ← SimpleMove.new king_square kingside_dest none
        pure [m]
      else pure []
    else pure []
  let queenMoves ←
    if b.castling_rights.get (castle_rights_offset + 1) then do
      let a0 ← b.square_under_attack king_square colour
      let e1 ← b.square_empty queenside_inbetween
      let a1 ← b.square_under_attack queenside_inbetween colour
      let e2 ← b.square_empty queenside_dest
      let a2 ← b.square_under_attack queenside_dest colour
      let e3 ← b.square_empty queenside_knight
      if !a0 && (e1 && !a1) && (e2 && !a2) && e3 then do
        let m ← SimpleMove.new king_square queenside_dest none
        pure [m]
      else pure []
    else pure []
  pure (kingMoves ++ queenMoves)

/-- Rust `PLegalMoveGenerator::piece_plegal_moves` (piece_list.rs lines
275-300): empty for a piece of the wrong colour, a halfmove clock of at
least 50 plies, or at least two occurrences of the current digest in the
board history; otherwise dispatch on the piece kind. -/
def Board.piece_plegal_moves (b : Board) (square : SimpleSquare) : RM (List SimpleMove) := do
  let piece ← b.get_piece square
  if piece.colour ≠ b.turn || b.halfmove_clock ≥ 50 ||
      b.board_history.count b.hash_board_state ≥ 2 then
    pure []
  else
    match piece.kind with
    | .King => do
        let moves ← b.offset_moves piece.square piece.colour KING_PATTERN
        let castles ← b.castle_moves piece.colour
        pure (moves ++ castles)
    | .Queen => b.traversal_moves piece.square piece.colour QUEEN_DIRECTIONS
    | .Bishop => b.traversal_moves piece.square piece.colour (QUEEN_DIRECTIONS.take 4)
    | .Knight => b.offset_moves piece.square piece.colour KNIGHT_PATTERN
    | .Rook => b.traversal_moves piece.square piece.colour (QUEEN_DIRECTIONS.drop 4)
    | .Pawn => b.pawn_moves piece.square piece.colour

/-- Loop of `PLegalMoveGenerator::all_plegal_moves`. -/
def Board.all_plegal_gather (b : Board) : List ChessPiece → RM (List SimpleMove)
  | [] => pure []
  | piece :: rest => do
      let here ← b.piece_plegal_moves piece.square
      let more ← b.all_plegal_gather rest
      pure (here ++ more)

/-- Rust `PLegalMoveGenerator::all_plegal_moves`: concatenation over the
pieces of the side to move. -/
def Board.all_plegal_moves (b : Board) : RM (List SimpleMove) :=
  b.all_plegal_gather (b.pieces.filter (fun piece => piece.colour == b.turn))

/-- Rust `PLegalMoveGenerator::is_move_plegal`. -/
def Board.is_move_plegal (b : Board) (chess_move : SimpleMove) : RM Bool := do
  let moves ← b.piece_plegal_moves chess_move.src
  pure (moves.contains chess_move)

/-- Filtering loop shared by `all_legal_moves` and `piece_legal_moves`:
keep each pseudo-legal move whose application leaves the mover's king not
attacked. -/
def Board.keep_king_safe (b : Board) : List SimpleMove → RM (List SimpleMove)
  | [] => pure []
  | chess_move :: rest => do
      let board ← b.move_piece chess_move
      let inCheck ← board.king_in_check b.turn
      let more ← b.keep_king_safe rest
      if !inCheck then pure (chess_move :: more) else pure more

/-- Rust `LegalMoveGenerator::all_legal_moves` (piece_list.rs lines
320-330). -/
def Board.all_legal_moves (b : Board) : RM (List SimpleMove) := do
  let pls ← b.all_plegal_moves
  b.keep_king_safe pls

/-- Rust `LegalMoveGenerator::piece_legal_moves`. -/
def Board.piece_legal_moves (b : Board) (square : SimpleSquare) : RM (List SimpleMove) := do
  let pls ← b.piece_plegal_moves square
  b.keep_king_safe pls

/-- Rust `LegalMoveGenerator::is_move_legal` (piece_list.rs lines 344-356). -/
def Board.is_move_legal (b : Board) (chess_move : SimpleMove) : RM Bool := do
  if ← b.is_move_plegal chess_move then do
    let board ← b.move_piece chess_move
    let inCheck ← board.king_in_check b.turn
    if !inCheck then pure true else pure false
  else pure false

/-- Rust `LegalMoveGenerator::move_piece_legal`. -/
def Board.move_piece_legal (b : Board) (chess_move : SimpleMove) : RM Board := do
  if ← b.is_move_legal chess_move then b.move_piece chess_move
  else .error (.chess (.IllegalMove chess_move))

/-- Rust `LegalMoveGenerator::state` (piece_list.rs lines 367-377): match on
the number of legal moves and whether the mover's king is in check. -/
def Board.state (b : Board) : RM BoardState := do
  let n := (← b.all_legal_moves).length
  let c ← b.king_in_check b.turn
  match n, c with
  | 0, true => pure .Checkmate
  | 0, false => pure .Stalemate
  | _ + 1, true => pure .Check
  | _ + 1, false => pure .Normal

/-- The per-move predicate of `ChessBoard::disambiguate_normal`.  The Rust
code accumulates `is_match` with the non-short-circuiting `&=`, so every
clause is evaluated: the `unwrap()` of `get_piece` on the move source, and,
when an action suffix is present, the `unwrap()`s of `move_piece` and
`state` on a clone, all panic on error. -/
def Board.disamb_match (b : Board) (piece_kind : PieceKind) (src_file src_rank : Option Nat)
    (takes : Bool) (dest : SimpleSquare) (promote_to : Option PieceKind)
    (action : Option MoveAction) (unambiguous_move : SimpleMove) : RM Bool := do
  let piece ←
    match b.get_piece unambiguous_move.src with
    | .ok piece => pure piece
    | .error _ => .error .panicErr
  let c1 := piece.kind == piece_kind
  let c2 :=
    match src_file with
    | some file => unambiguous_move.src.file == file
    | none => true
  let c3 :=
    match src_rank with
    | some rank => unambiguous_move.src.rank == rank
    | none => true
  let c4 :=
    if takes then (b.get_piece unambiguous_move.dest).isOk else true
  let c5 := unambiguous_move.dest == dest
  let c6 := unambiguous_move.promote_to == promote_to
  let c7 ←
    match action with
    | some action => do
        let board ←
          match b.move_piece unambiguous_move with
          | .ok board => pure board
          | .error _ => .error .panicErr
        let st ←
          match board.state with
          | .ok st => pure st
          | .error _ => .error .panicErr
        pure (st == action.toBoardState)
    | none => pure true
  pure (c1 && c2 && c3 && c4 && c5 && c6 && c7)

/-- The `filter`/`collect` of `ChessBoard::disambiguate_normal`, evaluated
in list order. -/
def Board.disamb_filter (b : Board) (piece_kind : PieceKind) (src_file src_rank : Option Nat)
    (takes : Bool) (dest : SimpleSquare) (promote_to : Option PieceKind)
    (action : Option MoveAction) : List SimpleMove → RM (List SimpleMove)
  | [] => pure []
  | m :: rest => do
      let keep ← b.disamb_match piece_kind src_file src_rank takes dest promote_to action m
      let more ← b.disamb_filter piece_kind src_file src_rank takes dest promote_to action rest
      if keep then pure (m :: more) else pure more

/-- Rust `ChessBoard::disambiguate_normal` (piece_list.rs lines 731-774):
filter the legal moves and inspect how many matches remain.  Calling it on a
`Castle` variant is a Rust `panic!`. -/
def Board.disambiguate_normal (b : Board) (chess_move : AmbiguousMove) : RM SimpleMove :=
  match chess_move with
  | .Castle _ => .error .panicErr
  | .Normal piece_kind src_file src_rank takes dest promote_to action => do
      let legal ← b.all_legal_moves
      let all_moves ← b.disamb_filter piece_kind src_file src_rank takes dest promote_to action
        legal
      match all_moves with
      | [] => .error (.chess (.ImpossibleMove chess_move))
      | [m] => pure m
      | _ => .error (.chess (.AmbiguousMoveErr chess_move))

/-- Rust `ChessBoard::disambiguate_castling` (piece_list.rs lines 776-793):
the fixed king move for the side to move; calling it on a `Normal` variant
is a Rust `panic!`, and `SimpleMove::new` cannot panic on these squares. -/
def Board.disambiguate_castling (b : Board) (chess_move : AmbiguousMove) : RM SimpleMove :=
  match chess_move with
  | .Normal _ _ _ _ _ _ _ => .error .panicErr
  | .Castle side =>
      let rank : Nat := if b.turn == .Black then 7 else 0
      let file : Nat := if side == .QueenSide then 2 else 6
      let src : SimpleSquare := if b.turn == .Black then ⟨4, 7⟩ else ⟨4, 0⟩
      .ok ⟨src, ⟨file, rank⟩, none⟩

/-- Rust `LegalMoveGenerator::disambiguate_move_internal` (piece_list.rs
lines 379-385). -/
def Board.disambiguate_move_internal (b : Board) (chess_move : AmbiguousMove) : RM SimpleMove :=
  match chess_move with
  | .Normal _ _ _ _ _ _ _ => b.disambiguate_normal chess_move
  | .Castle _ => b.disambiguate_castling chess_move

/-- Layout of a FEN position: rank row index 0 is the top row (rank 8), as
in the Rust `Box<[[Option<SimplePiece>; 8]; 8]>`. -/
def Layout : Type := Fin 8 → Fin 8 → Option SimplePiece

instance : DecidableEq Layout := by
  unfold Layout
  infer_instance

/-- Rust `parser::fen::Fen` (fen.rs lines 145-153). -/
structure Fen where
  layout : Layout
  turn : PieceColour
  castling_rights : CastlingRights
  en_passant : Option SimpleSquare
  halfmove_clock : Nat
  fullmove_number : Nat

instance : DecidableEq Fen := fun a b => by
  cases a
  cases b
  simp only [Fen.mk.injEq]
  infer_instance

/-- The square a layout cell `(i, j)` lands on: file `j`, rank `7 - i`
(Rust builds `SimpleSquare::new(j, 7 - i)`, always in range). -/
def cellSquare (ij : Fin 8 × Fin 8) : SimpleSquare := ⟨(ij.2 : Nat), 7 - (ij.1 : Nat)⟩

/-- The pieces a single layout cell contributes (none or one). -/
def cellPieces (L : Layout) (ij : Fin 8 × Fin 8) : List ChessPiece :=
  ((L ij.1 ij.2).map (fun piece => (⟨cellSquare ij, piece.kind, piece.colour⟩ : ChessPiece))).toList

/-- Row-major list of all layout cell indices, in the iteration order of the
Rust `From<Fen> for ChessBoard` loop. -/
def allCells : List (Fin 8 × Fin 8) :=
  (List.finRange 8).flatMap (fun i => (List.finRange 8).map (fun j => (i, j)))

/-- The piece list built by `impl From<Fen> for ChessBoard` (piece_list.rs
lines 387-400): push a piece for every occupied cell, row-major from the top
row. -/
def piecesOfLayout (L : Layout) : List ChessPiece :=
  allCells.flatMap (cellPieces L)

/-- Rust `impl From<Fen> for ChessBoard` (piece_list.rs lines 387-412): the
board fields are copied from the FEN and the board history starts empty. -/
def Board.ofFen (value : Fen) : Board :=
  { pieces := piecesOfLayout value.layout
    turn := value.turn
    en_passant := value.en_passant
    castling_rights := value.castling_rights
    halfmove_clock := value.halfmove_clock
    fullmove_number := value.fullmove_number
    board_history := [] }

/-- One cell of `impl TryFrom<&ChessBoard> for Fen`: a present piece, an
absent piece, or a propagated error. -/
def Board.fenCell (b : Board) (ij : Fin 8 × Fin 8) : RM (Option SimplePiece) :=
  match b.get_piece (cellSquare ij) with
  | .ok piece => .ok (some ⟨piece.kind, piece.colour⟩)
  | .error (.chess (.PieceNotFound _)) => .ok none
  | .error e => .error e

/-- Rust `impl TryFrom<&ChessBoard> for Fen` (piece_list.rs lines 824-847):
read every square row-major from the top row (propagating errors in that
order) and copy the remaining fields. -/
def Board.toFen (b : Board) : RM Fen := do
  let rows ← (List.finRange 8).mapM (fun i =>
    (List.finRange 8).mapM (fun j => b.fenCell (i, j)))
  pure
    { layout := fun i j => (rows.getD (i : Nat) []).getD (j : Nat) none
      turn := b.turn
      castling_rights := b.castling_rights
      en_passant := b.en_passant
      halfmove_clock := b.halfmove_clock
      fullmove_number := b.fullmove_number }

/-- A nom parser over `&str`, embedded over `List Char`: `none` is a nom
error, `some (rest, value)` is success with the unconsumed input. -/
def StrP (α : Type) : Type := List Char → Option (List Char × α)

/-- nom `tag`. -/
def pTag (t : List Char) : StrP Unit := fun s =>
  if t.isPrefixOf s then some (s.drop t.length, ()) else none

/-- nom `opt`: always succeeds. -/
def pOpt {α : Type} (p : StrP α) : StrP (Option α) := fun s =>
  match p s with
  | some (rest, a) => some (rest, some a)
  | none => some (s, none)

/-- nom `multispace0`: consume spaces, tabs, carriage returns and
newlines. -/
def pMultispace0 : StrP Unit := fun s =>
  some (s.dropWhile (fun c => c == ' ' || c == '\t' || c == '\n' || c == '\r'), ())

/-- nom `many0`, specialised to parsers that consume at least one character
on success (all uses here do), with explicit fuel; it never fails. -/
def pMany0 {α : Type} (p : StrP α) : Nat → List Char → (List Char × List α)
  | 0, s => (s, [])
  | fuel + 1, s =>
      match p s with
      | some (rest, a) =>
          let (rest', more) := pMany0 p fuel rest
          (rest', a :: more)
      | none => (s, [])

/-- nom `many1`: the first item must parse. -/
def pMany1 {α : Type} (p : StrP α) : StrP (List α) := fun s =>
  match p s with
  | some (rest, a) =>
      let (rest', more) := pMany0 p rest.length rest
      some (rest', a :: more)
  | none => none

/-- nom `separated_list1 sep p`. -/
def pSepList1 {α β : Type} (sep : StrP β) (p : StrP α) : StrP (List α) := fun s =>
  match p s with
  | some (rest, a) =>
      let step : StrP α := fun t =>
        match sep t with
        | some (t', _) => p t'
        | none => none
      let (rest', more) := pMany0 step rest.length rest
      some (rest', a :: more)
  | none => none

/-- Digit run folded to a `Nat` with the overflow bound of the given Rust
integer type (nom's checked `u32`/`usize` parsers fail on overflow). -/
def pUIntBounded (bound : Nat) : StrP Nat := fun s =>
  let digits := s.takeWhile (fun c => c.isDigit)
  if digits.isEmpty then none
  else
    let n := digits.foldl (fun acc c => acc * 10 + (c.toNat - '0'.toNat)) 0
    if n < bound then some (s.drop digits.length, n) else none

/-- nom `u32`. -/
def pU32 : StrP Nat := pUIntBounded (2 ^ 32)

/-- nom `usize` (64-bit targets). -/
def pUsize : StrP Nat := pUIntBounded (2 ^ 64)

/-- `PieceKind::try_from(char)` for the uppercase FEN letters. -/
def pieceKindOfChar : Char → Option PieceKind
  | 'K' => some .King
  | 'Q' => some .Queen
  | 'B' => some .Bishop
  | 'N' => some .Knight
  | 'R' => some .Rook
  | 'P' => some .Pawn
  | _ => none

/-- fen.rs `white_piece`: `one_of("QKNBRP")` mapped through
`PieceKind::try_from`. -/
def pWhitePiece : StrP SimplePiece := fun s =>
  match s with
  | c :: rest =>
      if c == 'Q' || c == 'K' || c == 'N' || c == 'B' || c == 'R' || c == 'P' then
        match pieceKindOfChar c with
        | some kind => some (rest, ⟨kind, .White⟩)
        | none => none
      else none
  | [] => none

/-- fen.rs `black_piece`: lowercase letters, uppercased before
`PieceKind::try_from`. -/
def pBlackPiece : StrP SimplePiece := fun s =>
  match s with
  | c :: rest =>
      if c == 'q' || c == 'k' || c == 'n' || c == 'b' || c == 'r' || c == 'p' then
        match pieceKindOfChar c.toUpper with
        | some kind => some (rest, ⟨kind, .Black⟩)
        | none => none
      else none
  | [] => none

/-- fen.rs `piece`: white first, then black. -/
def pFenPiece : StrP SimplePiece := fun s =>
  match pWhitePiece s with
  | some r => some r
  | none => pBlackPiece s

/-- fen.rs `turn`. -/
def pTurn : StrP PieceColour := fun s =>
  match pTag ['w'] s with
  | some (rest, _) => some (rest, .White)
  | none =>
      match pTag ['b'] s with
      | some (rest, _) => some (rest, .Black)
      | none => none

/-- The `while i < out.len()` loop of fen.rs `rank`: write parsed pieces at
index `i`, or skip `usize`-many squares.  Every iteration consumes at least
one character, so fuel `input.length + 1` makes the recursion equal to the
Rust loop. -/
def pRankLoop : Nat → List Char → Nat → (Fin 8 → Option SimplePiece) →
    Option (List Char × (Fin 8 → Option SimplePiece))
  | 0, _, _, _ => none
  | fuel + 1, input, i, out =>
      if i ≥ 8 then some (input, out)
      else
        match pFenPiece input with
        | some (rest, piece) =>
            let out' :=
              if h : i < 8 then Function.update out ⟨i, h⟩ (some piece) else out
            pRankLoop fuel rest (i + 1) out'
        | none =>
            match pUsize input with
            | some (rest, empty_squares) => pRankLoop fuel rest (i + empty_squares) out
            | none => none

/-- fen.rs `rank`. -/
def pRank : StrP (Fin 8 → Option SimplePiece) := fun s =>
  pRankLoop (s.length + 1) s 0 (fun _ => none)

/-- fen.rs `board_layout`: eight `/`-separated ranks (`collect_array` fails
on any other count). -/
def pBoardLayout : StrP Layout := fun s =>
  match pSepList1 (pTag ['/']) pRank s with
  | some (rest, ranks) =>
      if ranks.length == 8 then
        some (rest, fun i j => (ranks.getD (i : Nat) (fun _ => none)) j)
      else none
  | none => none

/-- One alternative of fen.rs `castling_rights`. -/
def pCastleItem : StrP (Option (CastlingSide × PieceColour)) := fun s =>
  match s with
  | 'K' :: rest => some (rest, some (.KingSide, .White))
  | 'Q' :: rest => some (rest, some (.QueenSide, .White))
  | 'k' :: rest => some (rest, some (.KingSide, .Black))
  | 'q' :: rest => some (rest, some (.QueenSide, .Black))
  | '-' :: rest => some (rest, none)
  | _ => none

/-- fen.rs `castling_rights`: `many1` of the five letter alternatives, then
membership tests building the `[bool; 4]`. -/
def pCastlingRights : StrP CastlingRights := fun s =>
  match pMany1 pCastleItem s with
  | some (rest, castles) =>
      some (rest,
        ⟨decide (some ((CastlingSide.KingSide, PieceColour.White)) ∈ castles),
         decide (some ((CastlingSide.QueenSide, PieceColour.White)) ∈ castles),
         decide (some ((CastlingSide.KingSide, PieceColour.Black)) ∈ castles),
         decide (some ((CastlingSide.QueenSide, PieceColour.Black)) ∈ castles)⟩)
  | none => none

/-- notation.rs `char_to_file`. -/
def charToFile : Char → Option Nat
  | 'a' => some 0
  | 'b' => some 1
  | 'c' => some 2
  | 'd' => some 3
  | 'e' => some 4
  | 'f' => some 5
  | 'g' => some 6
  | 'h' => some 7
  | _ => none

/-- notation.rs `char_to_rank`. -/
def charToRank : Char → Option Nat
  | '1' => some 0
  | '2' => some 1
  | '3' => some 2
  | '4' => some 3
  | '5' => some 4
  | '6' => some 5
  | '7' => some 6
  | '8' => some 7
  | _ => none

/-- pgn.rs `file`: `one_of("abcdefgh")` mapped through `char_to_file`. -/
def pFile : StrP Nat := fun s =>
  match s with
  | c :: rest =>
      match charToFile c with
      | some f => some (rest, f)
      | none => none
  | [] => none

/-- pgn.rs `rank`: `one_of("12345678")` mapped through `char_to_rank`. -/
def pRankChar : StrP Nat := fun s =>
  match s with
  | c :: rest =>
      match charToRank c with
      | some r => some (rest, r)
      | none => none
  | [] => none

/-- pgn.rs `square`; the parsed coordinates are in `0..=7`, so
`SimpleSquare::new` cannot panic here. -/
def pSquare : StrP SimpleSquare := fun s =>
  match pFile s with
  | some (s1, file) =>
      match pRankChar s1 with
      | some (s2, rank) => some (s2, ⟨file, rank⟩)
      | none => none
  | none => none

/-- fen.rs `en_passant`: a square or `-`. -/
def pEnPassant : StrP (Option SimpleSquare) := fun s =>
  match pSquare s with
  | some (rest, sq) => some (rest, some sq)
  | none =>
      match pTag ['-'] s with
      | some (rest, _) => some (rest, none)
      | none => none

/-- The first five stages of fen.rs `fen`, through the en-passant field and
the whitespace following it. -/
def fenAfterEp (input : List Char) :
    Option (List Char × (Layout × PieceColour × CastlingRights × Option SimpleSquare)) := do
  let (s1, _) ← pMultispace0 input
  let (s2, layout) ← pBoardLayout s1
  let (s3, _) ← pMultispace0 s2
  let (s4, turn) ← pTurn s3
  let (s5, _) ← pMultispace0 s4
  let (s6, castling_rights) ← pCastlingRights s5
  let (s7, _) ← pMultispace0 s6
  let (s8, en_passant) ← pEnPassant s7
  let (s9, _) ← pMultispace0 s8
  pure (s9, (layout, turn, castling_rights, en_passant))

/-- fen.rs `fen` (lines 119-143): the full parser; the two optional trailing
fields default through `unwrap_or(0)` — both of them. -/
def pFen (input : List Char) : Option (List Char × Fen) := do
  let (s1, (layout, turn, castling_rights, en_passant)) ← fenAfterEp input
  let (s2, halfmove_clock) ← pOpt pU32 s1
  let (s3, _) ← pMultispace0 s2
  let (s4, fullmove_number) ← pOpt pU32 s3
  pure (s4,
    { layout := layout
      turn := turn
      castling_rights := castling_rights
      en_passant := en_passant
      halfmove_clock := halfmove_clock.getD 0
      fullmove_number := fullmove_number.getD 0 })

/-- `PieceKind::try_from` restricted to `one_of("QKNBR")` as used by pgn.rs
`piece`. -/
def pPieceLetter : StrP PieceKind := fun s =>
  match s with
  | c :: rest =>
      if c == 'Q' || c == 'K' || c == 'N' || c == 'B' || c == 'R' then
        match pieceKindOfChar c with
        | some kind => some (rest, kind)
        | none => none
      else none
  | [] => none

/-- pgn.rs `piece` (lines 55-58): an optional piece letter, absence meaning
`Pawn`. -/
def pPgnPiece : StrP PieceKind := fun s =>
  match pOpt pPieceLetter s with
  | some (rest, piece_kind) => some (rest, piece_kind.getD .Pawn)
  | none => none

/-- pgn.rs `promotion` (lines 60-63): `=` followed by `piece` — so the
promotion piece may be any of the five letters, or `Pawn` when the letter is
absent. -/
def pPromotion : StrP PieceKind := fun s =>
  match pTag ['='] s with
  | some (rest, _) => pPgnPiece rest
  | none => none

/-- pgn.rs `action`: `+` or `#`. -/
def pAction : StrP MoveAction := fun s =>
  match s with
  | '+' :: rest => some (rest, .Check)
  | '#' :: rest => some (rest, .Checkmate)
  | _ => none

/-- pgn.rs `dest`: optional `x`, then a square. -/
def pDest : StrP (Bool × SimpleSquare) := fun s =>
  match pOpt (pTag ['x']) s with
  | some (s1, takes) =>
      match pSquare s1 with
      | some (s2, square) => some (s2, (takes.isSome, square))
      | none => none
  | none => none

/-- pgn.rs `disambiguated_move`: either optional file and rank
disambiguators before the destination, or the bare destination. -/
def pDisambiguatedMove : StrP (Option Nat × Option Nat × Bool × SimpleSquare) := fun s =>
  let branch1 : Option (List Char × (Option Nat × Option Nat × Bool × SimpleSquare)) := do
    let (s1, file) ← pOpt pFile s
    let (s2, rank) ← pOpt pRankChar s1
    let (s3, dest) ← pDest s2
    pure (s3, (file, rank, dest.1, dest.2))
  match branch1 with
  | some r => some r
  | none =>
      match pDest s with
      | some (s1, dest) => some (s1, (none, none, dest.1, dest.2))
      | none => none

/-- pgn.rs `normal_move` (lines 73-90). -/
def pNormalMove : StrP AmbiguousMove := fun s => do
  let (s1, piece_kind) ← pPgnPiece s
  let (s2, (src_file, src_rank, takes, dest)) ← pDisambiguatedMove s1
  let (s3, promote_to) ← pOpt pPromotion s2
  let (s4, action) ← pOpt pAction s3
  pure (s4, .Normal piece_kind src_file src_rank takes dest promote_to action)

/-- pgn.rs `chess_move` (lines 93-110): a normal move, else `O-O-O`, else
`O-O`. -/
def pChessMove : StrP AmbiguousMove := fun s =>
  match pNormalMove s with
  | some r => some r
  | none =>
      match pTag ['O', '-', 'O', '-', 'O'] s with
      | some (rest, _) => some (rest, .Castle .QueenSide)
      | none =>
          match pTag ['O', '-', 'O'] s with
          | some (rest, _) => some (rest, .Castle .KingSide)
          | none => none

/-- `ChessBoard::from_fen` (traits.rs): parse, then convert; a parse failure
is `InvalidFEN`. -/
def Board.from_fen (input : List Char) : RM Board :=
  match pFen input with
  | some (_, fen) => .ok (Board.ofFen fen)
  | none => .error (.chess .InvalidFEN)

/-- The starting-position FEN string of `ChessBoard::starting_board`
(traits.rs). -/
def startingFenStr : List Char :=
  "rnbqkbnr/pppppppp/8/8/8/8/PPPPPPPP/RNBQKBNR w KQkq - 0 1".toList

/-- `ChessBoard::starting_board` (traits.rs): `from_fen` of the starting
FEN, unwrapped (panics if parsing fails; it does not). -/
def Board.starting_board : RM Board :=
  match Board.from_fen startingFenStr with
  | .ok b => .ok b
  | .error _ => .error .panicErr

/-- Trailing-zero counter loop (64 iterations of fuel suffice for any `u64`
value). -/
def tzGo : Nat → Nat → Nat
  | 0, _ => 0
  | fuel + 1, n => if n % 2 == 1 then 0 else tzGo fuel (n / 2) + 1

/-- `u64::trailing_zeros` (64 for zero). -/
def tz64 (n : Nat) : Nat := if n == 0 then 64 else tzGo 64 n

/-- Bitwise NOT on `u64`, as xor with the all-ones word (values stay below
`2 ^ 64`). -/
def not64 (x : Nat) : Nat := (2 ^ 64 - 1) ^^^ x

/-- Bitwise chess square representation (bitboard.rs): a one-bit `u64`. -/
structure BitSquare where
  val : Nat
deriving DecidableEq

/-- `BitSquare::new`: `1 << (file + rank * 8)`. -/
def BitSquare.new (file rank : Nat) : BitSquare := ⟨2 ^ (file + rank * 8)⟩

/-- `ChessSquare::file` for `BitSquare`. -/
def BitSquare.file (s : BitSquare) : Nat := tz64 s.val % 8

/-- `ChessSquare::rank` for `BitSquare`. -/
def BitSquare.rank (s : BitSquare) : Nat := tz64 s.val / 8

/-- `impl From<BitSquare> for SimpleSquare` (the `SimpleSquare::new` assert
cannot fire on the one-bit values the code builds). -/
def BitSquare.toSimple (s : BitSquare) : SimpleSquare := ⟨s.file, s.rank⟩

/-- Chess move using `BitSquare` (bitboard.rs). -/
structure BitMove where
  src : BitSquare
  dest : BitSquare
  promote_to : Option PieceKind
deriving DecidableEq

/-- The six kind words and the White-occupancy word of the bitboard
(bitboard.rs `PieceMap`); `pieces[0]` is King through `pieces[5]` Pawn. -/
structure PieceMap where
  king : Nat
  queen : Nat
  rook : Nat
  bishop : Nat
  knight : Nat
  pawn : Nat
  colour : Nat
deriving DecidableEq

/-- `Index<PieceKind> for PieceMap`. -/
def PieceMap.kindWord (pm : PieceMap) : PieceKind → Nat
  | .King => pm.king
  | .Queen => pm.queen
  | .Rook => pm.rook
  | .Bishop => pm.bishop
  | .Knight => pm.knight
  | .Pawn => pm.pawn

/-- `IndexMut<PieceKind> for PieceMap`. -/
def PieceMap.setKindWord (pm : PieceMap) (k : PieceKind) (v : Nat) : PieceMap :=
  match k with
  | .King => { pm with king := v }
  | .Queen => { pm with queen := v }
  | .Rook => { pm with rook := v }
  | .Bishop => { pm with bishop := v }
  | .Knight => { pm with knight := v }
  | .Pawn => { pm with pawn := v }

/-- PIECE_KINDS (bitboard.rs): the probe order of `get_piece`. -/
def PIECE_KINDS : List PieceKind := [.King, .Queen, .Rook, .Bishop, .Knight, .Pawn]

/-- Loop of `PieceMap::get_piece` over `PIECE_KINDS`. -/
def PieceMap.get_piece_go (pm : PieceMap) (square : BitSquare) : List PieceKind → RM SimplePiece
  | [] => .error (.chess (.PieceNotFound square.toSimple))
  | kind :: rest =>
      if pm.kindWord kind &&& square.val ≠ 0 then
        if pm.colour &&& square.val ≠ 0 then .ok ⟨kind, .White⟩
        else .ok ⟨kind, .Black⟩
      else pm.get_piece_go square rest

/-- `PieceMap::get_piece` (bitboard.rs lines 179-190). -/
def PieceMap.get_piece (pm : PieceMap) (square : BitSquare) : RM SimplePiece :=
  pm.get_piece_go square PIECE_KINDS

/-- `PieceMap::add_piece`: set the kind bit; set the colour bit for White,
clear it for Black. -/
def PieceMap.add_piece (pm : PieceMap) (square : BitSquare) (piece : SimplePiece) : PieceMap :=
  let pm := pm.setKindWord piece.kind (pm.kindWord piece.kind ||| square.val)
  if piece.colour == .White then { pm with colour := pm.colour ||| square.val }
  else { pm with colour := pm.colour &&& not64 square.val }

/-- `PieceMap::remove_piece`: clear the bit in every kind word (the colour
word is left untouched, as in the Rust code). -/
def PieceMap.remove_piece (pm : PieceMap) (square : BitSquare) : PieceMap :=
  { pm with
    king := pm.king &&& not64 square.val
    queen := pm.queen &&& not64 square.val
    rook := pm.rook &&& not64 square.val
    bishop := pm.bishop &&& not64 square.val
    knight := pm.knight &&& not64 square.val
    pawn := pm.pawn &&& not64 square.val }

/-- `PieceMap::move_piece` (bitboard.rs lines 196-209). -/
def PieceMap.move_piece (pm : PieceMap) (chess_move : BitMove) : RM PieceMap := do
  let piece ← pm.get_piece chess_move.src
  let pm := pm.remove_piece chess_move.dest
  let pm := pm.remove_piece chess_move.src
  match chess_move.promote_to with
  | some promote_to => pure (pm.add_piece chess_move.dest ⟨promote_to, piece.colour⟩)
  | none => pure (pm.add_piece chess_move.dest piece)

/-- `impl From<Fen> for PieceMap` (bitboard.rs lines 212-230): add a piece
for every occupied cell, row-major from the top row. -/
def PieceMap.ofFen (value : Fen) : PieceMap :=
  allCells.foldl
    (fun pm ij =>
      match value.layout ij.1 ij.2 with
      | some piece => pm.add_piece (BitSquare.new (ij.2 : Nat) (7 - (ij.1 : Nat))) piece
      | none => pm)
    ⟨0, 0, 0, 0, 0, 0, 0⟩

/-- Chess bitboard (bitboard.rs). -/
structure BitBoard where
  pieces : PieceMap
  turn : PieceColour
  en_passant : Option BitSquare
  castling_rights : CastlingRights
  halfmove_clock : Nat
  fullmove_number : Nat
deriving DecidableEq

/-- `BitBoard::en_passant_target` (bitboard.rs lines 418-425). -/
def BitBoard.en_passant_target (b : BitBoard) (piece : SimplePiece) (chess_move : BitMove) :
    Option BitSquare :=
  match b.en_passant with
  | some en_passant =>
      if piece.kind == .Pawn && chess_move.dest == en_passant then
        some (BitSquare.new chess_move.dest.file chess_move.src.rank)
      else none
  | none => none

/-- `BitBoard::take_en_passant` (bitboard.rs lines 411-415). -/
def BitBoard.take_en_passant (b : BitBoard) (piece : SimplePiece) (chess_move : BitMove) :
    BitBoard :=
  match b.en_passant_target piece chess_move with
  | some taken_pawn_square => { b with pieces := b.pieces.remove_piece taken_pawn_square }
  | none => b

/-- `BitBoard::update_castling_rights` (bitboard.rs lines 438-453): same
shape as the piece-list version. -/
def BitBoard.update_castling_rights (b : BitBoard) (piece : SimplePiece) (chess_move : BitMove) :
    BitBoard :=
  let castling_offset := castling_right_offset piece.colour
  match piece.kind with
  | .King =>
      { b with castling_rights :=
          ((b.castling_rights.set (castling_offset + 0) false).set (castling_offset + 1) false) }
  | .Rook =>
      if chess_move.src.file == 0 then
        { b with castling_rights := b.castling_rights.set (castling_offset + 1) false }
      else if chess_move.src.file == 7 then
        { b with castling_rights := b.castling_rights.set (castling_offset + 0) false }
      else b
  | _ => b

/-- `BitBoard::move_piece` (bitboard.rs lines 306-362).  Note the order: for
a pawn move the en-passant target is set or cleared *before*
`take_en_passant` runs, so a genuine en-passant capture finds the target
already cleared and removes no pawn. -/
def BitBoard.move_piece (b : BitBoard) (chess_move : BitMove) : RM BitBoard := do
  let b := { b with halfmove_clock := b.halfmove_clock + 1 }
  let b ←
    match b.pieces.get_piece chess_move.dest with
    | .ok _ => pure { b with halfmove_clock := 0 }
    | .error (.chess (.PieceNotFound _)) => pure b
    | .error e => .error e
  let piece ← b.pieces.get_piece chess_move.src
  let pm ← b.pieces.move_piece chess_move
  let b := { b with pieces := pm }
  let rank_offset : Int := (chess_move.dest.rank : Int) - (chess_move.src.rank : Int)
  let file_offset : Int := (chess_move.dest.file : Int) - (chess_move.src.file : Int)
  let b :=
    if piece.kind == .Pawn then
      let b := { b with halfmove_clock := 0 }
      let epSq :=
        BitSquare.new chess_move.src.file ((chess_move.src.rank : Int) + rank_offset.tdiv 2).toNat
      if rank_offset.natAbs == 2 then { b with en_passant := some epSq }
      else { b with en_passant := none }
    else b
  let b ←
    if piece.kind == .King then
      if file_offset == 2 then do
        let src := BitSquare.new 7 chess_move.src.rank
        let dest := BitSquare.new 5 chess_move.src.rank
        let pm ← b.pieces.move_piece ⟨src, dest, none⟩
        pure { b with pieces := pm }
      else if file_offset == -2 then do
        let src := BitSquare.new 0 chess_move.src.rank
        let dest := BitSquare.new 3 chess_move.src.rank
        let pm ← b.pieces.move_piece ⟨src, dest, none⟩
        pure { b with pieces := pm }
      else pure b
    else pure b
  let b := b.take_en_passant piece chess_move
  let b := b.update_castling_rights piece chess_move
  let b := { b with turn := b.turn.flip }
  let b :=
    if b.turn == .White then { b with fullmove_number := b.fullmove_number + 1 } else b
  pure b

/-- `impl From<Fen> for BitBoard` (bitboard.rs lines 456-468). -/
def BitBoard.ofFen (value : Fen) : BitBoard :=
  { pieces := PieceMap.ofFen value
    turn := value.turn
    en_passant := value.en_passant.map (fun s => BitSquare.new s.file s.rank)
    castling_rights := value.castling_rights
    halfmove_clock := value.halfmove_clock
    fullmove_number := value.fullmove_number }


theorem enumFrom_filter_map_snd {α : Type} (f : α → Bool) :
    ∀ (l : List α) (n : Nat),
      ((List.enumFrom n l).filter (fun pi => f pi.2)).map Prod.snd = l.filter f := by
  intro l
  induction l with
  | nil => intro n; simp
  | cons a as ih =>
      intro n
      rw [List.enumFrom_cons, List.filter_cons, List.filter_cons]
      by_cases h : f a
      · simp only [h, if_true, List.map_cons, ih]
      · simp only [h, Bool.false_eq_true, if_false, ih]

theorem le_fst_of_mem_enumFrom {α : Type} :
    ∀ (l : List α) (n : Nat) (x : Nat × α), x ∈ List.enumFrom n l → n ≤ x.1 := by
  intro l
  induction l with
  | nil => intro n x h; simp at h
  | cons a as ih =>
      intro n x h
      rw [List.enumFrom_cons] at h
      rcases List.mem_cons.mp h with h1 | h2
      · subst h1; exact Nat.le_refl n
      · exact Nat.le_of_succ_le (ih (n + 1) x h2)

theorem getD_of_mem_enumFrom {α : Type} (d : α) :
    ∀ (l : List α) (n i : Nat) (p : α), (i, p) ∈ List.enumFrom n l → l.getD (i - n) d = p := by
  intro l
  induction l with
  | nil => intro n i p h; simp at h
  | cons a as ih =>
      intro n i p h
      rw [List.enumFrom_cons] at h
      rcases List.mem_cons.mp h with h1 | h2
      · have h1a : i = n := congrArg Prod.fst h1
        have h1b : p = a := congrArg Prod.snd h1
        subst h1a
        simp [h1b]
      · have hle : n + 1 ≤ i := le_fst_of_mem_enumFrom as (n + 1) (i, p) h2
        have : i - n = (i - (n + 1)) + 1 := by omega
        rw [this]
        simpa using ih (n + 1) i p h2

theorem get_piece_of_idx (b : Board) (sq : SimpleSquare) (i : Nat)
    (h : b.get_piece_idx sq = .ok i) :
    b.get_piece sq = .ok (b.pieces.getD i defaultPiece) := by
  unfold Board.get_piece_idx at h
  unfold Board.get_piece
  cases hf : b.pieces.enum.filter (fun pi => pi.2.square == sq) with
  | nil => rw [hf] at h; exact absurd h (by simp)
  | cons x rest =>
      cases rest with
      | nil =>
          rw [hf] at h
          have hx : x.1 = i := by
            have := congrArg (fun r => match r with | .ok v => v | .error _ => 0) h
            simpa using this
          have hmem : x ∈ List.enumFrom 0 b.pieces := by
            have : x ∈ b.pieces.enum.filter (fun pi => pi.2.square == sq) := by
              rw [hf]; exact List.mem_singleton.mpr rfl
            have := List.mem_of_mem_filter this
            simpa [List.enum] using this
          have hgd : b.pieces.getD (x.1 - 0) defaultPiece = x.2 :=
            getD_of_mem_enumFrom defaultPiece b.pieces 0 x.1 x.2 (by
              have : (x.1, x.2) = x := rfl
              rw [this]; exact hmem)
          have hsnd := enumFrom_filter_map_snd (fun p : ChessPiece => p.square == sq) b.pieces 0
          have hff : b.pieces.filter (fun p => p.square == sq) = [x.2] := by
            rw [← hsnd]
            have : List.enumFrom 0 b.pieces = b.pieces.enum := by simp [List.enum]
            rw [this, hf]
            simp
          have hgd' : b.pieces.getD x.1 defaultPiece = x.2 := by simpa using hgd
          rw [hff, ← hx, hgd']
      | cons y rest2 =>
          rw [hf] at h
          exact absurd h (by simp)

theorem castle_rook_shape (b : Board) (p : ChessPiece) (o : SquareOffset) (b2 : Board)
    (h : b.castle_rook p o = .ok b2) : b2 = { b with pieces := b2.pieces } := by
  unfold Board.castle_rook at h
  simp only [Bind.bind, Except.bind, pure, Except.pure] at h
  repeat' split at h
  all_goals
    first
    | exact Except.noConfusion h
    | (injection h with h; subst h; rfl)

theorem take_en_passant_shape (b : Board) (p : ChessPiece) (o : SquareOffset) (b2 : Board)
    (h : b.take_en_passant p o = .ok b2) : b2 = { b with pieces := b2.pieces } := by
  unfold Board.take_en_passant Board.en_passant_target at h
  simp only [Bind.bind, Except.bind, pure, Except.pure] at h
  repeat' split at h
  all_goals
    first
    | exact Except.noConfusion h
    | (injection h with h; subst h; rfl)

def rights_update (rights : CastlingRights) (kind : PieceKind) (colour : PieceColour)
    (src_file : Nat) : CastlingRights :=
  let castling_offset := castling_right_offset colour
  match kind with
  | .King => (rights.set (castling_offset + 0) false).set (castling_offset + 1) false
  | .Rook =>
      if src_file == 0 then rights.set (castling_offset + 1) false
      else if src_file == 7 then rights.set (castling_offset + 0) false
      else rights
  | _ => rights

theorem ucr_rights (b : Board) (p : ChessPiece) (m : SimpleMove) :
    (b.update_castling_rights p m).castling_rights =
      rights_update b.castling_rights p.kind p.colour m.src.file := by
  unfold Board.update_castling_rights rights_update
  cases p.kind <;> simp only [] <;> (repeat' split) <;> simp

theorem ucr_history (b : Board) (p : ChessPiece) (m : SimpleMove) :
    (b.update_castling_rights p m).board_history = b.board_history := by
  unfold Board.update_castling_rights
  cases p.kind <;> simp only [] <;> (repeat' split) <;> simp

set_option maxRecDepth 4000 in
theorem move_piece_shape (b : Board) (m : SimpleMove) (b' : Board)
    (h : b.move_piece m = .ok b') :
    ∃ i, b.get_piece_idx m.src = .ok i ∧
      b'.board_history = b.board_history ++ [b.hash_board_state] ∧
      b'.castling_rights =
        rights_update b.castling_rights
          (m.promote_to.getD (b.pieces.getD i defaultPiece).kind)
          ((b.pieces.getD i defaultPiece).colour) m.src.file := by
  unfold Board.move_piece at h
  simp only [Bind.bind, Except.bind, pure, Except.pure] at h
  repeat' split at h
  all_goals first | exact Except.noConfusion h | skip
  all_goals (injection h with h; subst h)
  all_goals refine ⟨_, by assumption, ?_, ?_⟩
  all_goals simp [ucr_rights, ucr_history, Board.hash_board_state]
  all_goals
    repeat
      first
      | (have hte := take_en_passant_shape _ _ _ _
            (show Board.take_en_passant _ _ _ = .ok _ by assumption)
         rw [hte]
         simp [Board.hash_board_state])
      | (have hcr := castle_rook_shape _ _ _ _
            (show Board.castle_rook _ _ _ = .ok _ by assumption)
         rw [hcr]
         simp [Board.hash_board_state])
  all_goals ((repeat' split) <;> simp [Board.hash_board_state, Option.getD])

theorem keep_king_safe_mem (b : Board) :
    ∀ (l out : List SimpleMove), b.keep_king_safe l = .ok out →
      ∀ m, m ∈ out ↔ (m ∈ l ∧
        ∃ b2, b.move_piece m = .ok b2 ∧ b2.king_in_check b.turn = .ok false) := by
  intro l
  induction l with
  | nil =>
      intro out h m
      unfold Board.keep_king_safe at h
      have : out = [] := by simpa [pure, Except.pure] using h.symm
      subst this
      simp
  | cons c rest ih =>
      intro out h m
      unfold Board.keep_king_safe at h
      simp only [Bind.bind, Except.bind] at h
      split at h
      · exact Except.noConfusion h
      rename_i bc hmv
      split at h
      · exact Except.noConfusion h
      rename_i v hkc
      split at h
      · exact Except.noConfusion h
      rename_i out' hrest
      have hih := ih out' hrest
      by_cases hv : v = true
      · have hout : out = out' := by
          rw [hv] at h; simpa [pure, Except.pure] using h.symm
        subst hout
        constructor
        · intro hm
          obtain ⟨hmem, hsafe⟩ := (hih m).mp hm
          exact ⟨List.mem_cons_of_mem _ hmem, hsafe⟩
        · intro hall
          obtain ⟨hmem, hsafe⟩ := hall
          rcases List.mem_cons.mp hmem with hc | hr
          · exfalso
            obtain ⟨b2, hb2, hk2⟩ := hsafe
            subst hc
            rw [hmv] at hb2
            injection hb2 with hb2
            subst hb2
            rw [hkc] at hk2
            injection hk2 with hk2
            exact absurd hk2.symm (by simp [hv])
          · exact (hih m).mpr ⟨hr, hsafe⟩
      · have hvf : v = false := by simpa using hv
        have hout : out = c :: out' := by
          rw [hvf] at h; simpa [pure, Except.pure] using h.symm
        subst hout
        constructor
        · intro hm
          rcases List.mem_cons.mp hm with hc | hr
          · subst hc
            exact ⟨List.mem_cons_self .., ⟨bc, hmv, hvf ▸ hkc⟩⟩
          · obtain ⟨hmem, hsafe⟩ := (hih m).mp hr
            exact ⟨List.mem_cons_of_mem _ hmem, hsafe⟩
        · intro hall
          obtain ⟨hmem, hsafe⟩ := hall
          rcases List.mem_cons.mp hmem with hc | hr
          · subst hc; exact List.mem_cons_self ..
          · exact List.mem_cons_of_mem _ ((hih m).mpr ⟨hr, hsafe⟩)

theorem is_move_legal_char (b : Board) (m : SimpleMove) :
    b.is_move_legal m = .ok true ↔
      (b.is_move_plegal m = .ok true ∧
        ∃ b2, b.move_piece m = .ok b2 ∧ b2.king_in_check b.turn = .ok false) := by
  unfold Board.is_move_legal
  simp only [Bind.bind, Except.bind]
  cases hp : b.is_move_plegal m with
  | error e => simp
  | ok v =>
      cases v with
      | false => simp [pure, Except.pure]
      | true =>
          simp only [if_true]
          cases hmv : b.move_piece m with
          | error e => simp
          | ok b2 =>
              simp only []
              cases hkc : b2.king_in_check b.turn with
              | error e => simp [hkc]
              | ok c =>
                  cases c with
                  | false =>
                      simp [hkc, hmv, pure, Except.pure]
                  | true =>
                      simp only [hkc, Bool.not_true, Bool.false_eq_true, if_false, pure,
                        Except.pure]
                      constructor
                      · intro hcon; exact absurd hcon (by simp)
                      · intro hall
                        obtain ⟨_, b3, hb3, hk3⟩ := hall
                        injection hb3 with hb3
                        subst hb3
                        rw [hkc] at hk3
                        exact absurd hk3 (by simp)

/-- C1: a pseudo-legal move of the side to move is accepted as legal (kept
by `all_legal_moves` and by `piece_legal_moves`, accepted by
`is_move_legal`) if and only if applying it to a clone of the board leaves
the mover's king not attacked; after any move kept as legal is applied, the
king of the side that just moved is not attacked. -/
theorem C1_legality_filter (b : Board) (sq : SimpleSquare) (ms ls pms pls : List SimpleMove)
    (hp : b.all_plegal_moves = .ok ms) (hl : b.all_legal_moves = .ok ls)
    (hpp : b.piece_plegal_moves sq = .ok pms) (hpl : b.piece_legal_moves sq = .ok pls) :
    (∀ m, m ∈ ls ↔ (m ∈ ms ∧
      ∃ b2, b.move_piece m = .ok b2 ∧ b2.king_in_check b.turn = .ok false)) ∧
    (∀ m, m ∈ pls ↔ (m ∈ pms ∧
      ∃ b2, b.move_piece m = .ok b2 ∧ b2.king_in_check b.turn = .ok false)) ∧
    (∀ m, b.is_move_legal m = .ok true ↔
      (b.is_move_plegal m = .ok true ∧
        ∃ b2, b.move_piece m = .ok b2 ∧ b2.king_in_check b.turn = .ok false)) ∧
    (∀ m b2, m ∈ ls → b.move_piece m = .ok b2 → b2.king_in_check b.turn = .ok false) := by
  have hks : b.keep_king_safe ms = .ok ls := by
    unfold Board.all_legal_moves at hl
    simp only [Bind.bind, Except.bind, hp] at hl
    exact hl
  have hks2 : b.keep_king_safe pms = .ok pls := by
    unfold Board.piece_legal_moves at hpl
    simp only [Bind.bind, Except.bind, hpp] at hpl
    exact hpl
  refine ⟨keep_king_safe_mem b ms ls hks, keep_king_safe_mem b pms pls hks2,
    fun m => is_move_legal_char b m, ?_⟩
  intro m b2 hmem hmv
  obtain ⟨_, b3, hb3, hk3⟩ := (keep_king_safe_mem b ms ls hks m).mp hmem
  rw [hmv] at hb3
  injection hb3 with hb3
  subst hb3
  exact hk3

theorem plegal_empty_of_flag (b : Board)
    (hflag : 50 ≤ b.halfmove_clock ∨ 2 ≤ b.board_history.count b.hash_board_state) :
    ∀ sq ms, b.piece_plegal_moves sq = .ok ms → ms = [] := by
  intro sq ms h
  unfold Board.piece_plegal_moves at h
  simp only [Bind.bind, Except.bind] at h
  split at h
  · exact Except.noConfusion h
  rename_i piece hg
  have hcond :
      (decide ¬piece.colour = b.turn || decide (50 ≤ b.halfmove_clock) ||
        decide (2 ≤ b.board_history.count b.hash_board_state)) = true := by
    rcases hflag with hf | hf <;> simp [hf]
  rw [hcond] at h
  simp only [if_true, pure, Except.pure] at h
  injection h with h
  exact h.symm

theorem gather_empty_of_flag (b : Board)
    (hflag : 50 ≤ b.halfmove_clock ∨ 2 ≤ b.board_history.count b.hash_board_state) :
    ∀ l ms, b.all_plegal_gather l = .ok ms → ms = [] := by
  intro l
  induction l with
  | nil =>
      intro ms h
      unfold Board.all_plegal_gather at h
      simpa [pure, Except.pure] using h.symm
  | cons p rest ih =>
      intro ms h
      unfold Board.all_plegal_gather at h
      simp only [Bind.bind, Except.bind] at h
      split at h
      · exact Except.noConfusion h
      rename_i here hhere
      split at h
      · exact Except.noConfusion h
      rename_i more hmore
      have h1 : here = [] := plegal_empty_of_flag b hflag p.square here hhere
      have h2 : more = [] := ih more hmore
      subst h1
      subst h2
      simpa [pure, Except.pure] using h.symm

/-- C2 (amended): `state` is determined by the computed legal-move list and
the in-check test — `Checkmate` when the list is empty and the king is
attacked, `Stalemate` when it is empty and the king is safe, `Check` and
`Normal` otherwise — and the pseudo-legal move list (hence the legal-move
list) is empty as soon as the halfmove clock is at least 50 plies or the
board history holds at least two occurrences of the current digest. -/
theorem C2_state_classification (b : Board) :
    (∀ ls c, b.all_legal_moves = .ok ls → b.king_in_check b.turn = .ok c →
      b.state = .ok (if ls.isEmpty then (if c then .Checkmate else .Stalemate)
        else (if c then .Check else .Normal))) ∧
    (∀ ms, b.all_plegal_moves = .ok ms → 50 ≤ b.halfmove_clock → ms = []) ∧
    (∀ ms, b.all_plegal_moves = .ok ms →
      2 ≤ b.board_history.count b.hash_board_state → ms = []) := by
  refine ⟨?_, ?_, ?_⟩
  · intro ls c hl hc
    unfold Board.state
    simp only [Bind.bind, Except.bind, hl, hc]
    cases ls <;> cases c <;> simp [pure, Except.pure]
  · intro ms hp hclock
    exact gather_empty_of_flag b (Or.inl hclock) _ ms hp
  · intro ms hp hrep
    exact gather_empty_of_flag b (Or.inr hrep) _ ms hp

/-- The per-move match relation of the amended claim C3, clause by clause:
piece kind from the board, optional source-file and source-rank filters, the
capture marker requiring an occupied destination, destination and promotion
equality, and the optional action suffix requiring the resulting state. -/
def disamb_match_spec (b : Board) (piece_kind : PieceKind) (src_file src_rank : Option Nat)
    (takes : Bool) (dest : SimpleSquare) (promote_to : Option PieceKind)
    (action : Option MoveAction) (m : SimpleMove) : Prop :=
  (∃ p, b.get_piece m.src = .ok p ∧ p.kind = piece_kind) ∧
  (∀ f, src_file = some f → m.src.file = f) ∧
  (∀ r, src_rank = some r → m.src.rank = r) ∧
  (takes = true → ∃ p, b.get_piece m.dest = .ok p) ∧
  m.dest = dest ∧
  m.promote_to = promote_to ∧
  (∀ a, action = some a → ∃ b2, b.move_piece m = .ok b2 ∧ b2.state = .ok a.toBoardState)

theorem optNat_filter_iff (o : Option Nat) (v : Nat) :
    (match o with | some f => v == f | none => true) = true ↔ (∀ f, o = some f → v = f) := by
  cases o <;> simp

theorem takes_or_iff (b : Board) (takes : Bool) (sq : SimpleSquare) :
    (takes = false ∨ Except.isOk (b.get_piece sq) = true) ↔
      (takes = true → ∃ p, b.get_piece sq = .ok p) := by
  cases takes <;> cases h : b.get_piece sq <;> simp [h, Except.isOk, Except.toBool]

theorem disamb_match_char (b : Board) (piece_kind : PieceKind) (src_file src_rank : Option Nat)
    (takes : Bool) (dest : SimpleSquare) (promote_to : Option PieceKind)
    (action : Option MoveAction) (m : SimpleMove) (r : Bool)
    (h : b.disamb_match piece_kind src_file src_rank takes dest promote_to action m = .ok r) :
    r = true ↔ disamb_match_spec b piece_kind src_file src_rank takes dest promote_to action m := by
  unfold Board.disamb_match at h
  simp only [Bind.bind, Except.bind, pure, Except.pure] at h
  split at h
  case h_2 => simp at h
  rename_i p hget0
  try simp only [] at h
  split at h
  · -- action = some a
    rename_i aOpt a
    split at h
    case h_2 => simp at h
    rename_i b2 hb2
    try simp only [] at h
    split at h
    case h_2 => simp at h
    rename_i st hst
    try simp only [] at h
    injection h with h
    subst h
    unfold disamb_match_spec
    simp [hget0, hb2, hst, Bool.and_eq_true, beq_iff_eq, optNat_filter_iff, takes_or_iff]
    tauto
  · -- action = none
    injection h with h
    subst h
    unfold disamb_match_spec
    simp [hget0, Bool.and_eq_true, beq_iff_eq, optNat_filter_iff, takes_or_iff]
    tauto

theorem disamb_filter_mem (b : Board) (piece_kind : PieceKind) (src_file src_rank : Option Nat)
    (takes : Bool) (dest : SimpleSquare) (promote_to : Option PieceKind)
    (action : Option MoveAction) :
    ∀ (l out : List SimpleMove),
      b.disamb_filter piece_kind src_file src_rank takes dest promote_to action l = .ok out →
      ∀ m, m ∈ out ↔ (m ∈ l ∧
        disamb_match_spec b piece_kind src_file src_rank takes dest promote_to action m) := by
  intro l
  induction l with
  | nil =>
      intro out h m
      unfold Board.disamb_filter at h
      have : out = [] := by simpa [pure, Except.pure] using h.symm
      subst this
      simp
  | cons c rest ih =>
      intro out h m
      unfold Board.disamb_filter at h
      simp only [Bind.bind, Except.bind] at h
      split at h
      · exact Except.noConfusion h
      rename_i keep hkeep
      split at h
      · exact Except.noConfusion h
      rename_i out' hrest
      have hih := ih out' hrest
      have hchar := disamb_match_char b piece_kind src_file src_rank takes dest promote_to
        action c keep hkeep
      by_cases hk : keep = true
      · have hout : out = c :: out' := by
          rw [hk] at h; simpa [pure, Except.pure] using h.symm
        subst hout
        constructor
        · intro hm
          rcases List.mem_cons.mp hm with hc | hr
          · subst hc
            exact ⟨List.mem_cons_self .., hchar.mp hk⟩
          · obtain ⟨hmem, hspec⟩ := (hih m).mp hr
            exact ⟨List.mem_cons_of_mem _ hmem, hspec⟩
        · intro hall
          obtain ⟨hmem, hspec⟩ := hall
          rcases List.mem_cons.mp hmem with hc | hr
          · subst hc; exact List.mem_cons_self ..
          · exact List.mem_cons_of_mem _ ((hih m).mpr ⟨hr, hspec⟩)
      · have hkf : keep = false := by simpa using hk
        have hout : out = out' := by
          rw [hkf] at h; simpa [pure, Except.pure] using h.symm
        subst hout
        constructor
        · intro hm
          obtain ⟨hmem, hspec⟩ := (hih m).mp hm
          exact ⟨List.mem_cons_of_mem _ hmem, hspec⟩
        · intro hall
          obtain ⟨hmem, hspec⟩ := hall
          rcases List.mem_cons.mp hmem with hc | hr
          · exfalso
            subst hc
            exact absurd (hchar.mpr hspec) (by simp [hkf])
          · exact (hih m).mpr ⟨hr, hspec⟩

/-- C3 (amended): `disambiguate_move_internal` on a `Normal` ambiguous move
filters the legal moves by the clauses of `disamb_match_spec` — where the
capture marker requires the destination square to be occupied, so an
en-passant capture written with the marker matches nothing — and returns
the single match, the `ImpossibleMove` error on zero matches, or the
`AmbiguousMove` error on two or more. -/
theorem C3_disambiguation (b : Board) (piece_kind : PieceKind) (src_file src_rank : Option Nat)
    (takes : Bool) (dest : SimpleSquare) (promote_to : Option PieceKind)
    (action : Option MoveAction) (ls fl : List SimpleMove)
    (hl : b.all_legal_moves = .ok ls)
    (hf : b.disamb_filter piece_kind src_file src_rank takes dest promote_to action ls = .ok fl) :
    (∀ m, m ∈ fl ↔ (m ∈ ls ∧
      disamb_match_spec b piece_kind src_file src_rank takes dest promote_to action m)) ∧
    b.disambiguate_move_internal
        (.Normal piece_kind src_file src_rank takes dest promote_to action) =
      (match fl with
       | [] => .error (.chess (.ImpossibleMove
           (.Normal piece_kind src_file src_rank takes dest promote_to action)))
       | [m] => .ok m
       | _ => .error (.chess (.AmbiguousMoveErr
           (.Normal piece_kind src_file src_rank takes dest promote_to action)))) := by
  refine ⟨disamb_filter_mem b piece_kind src_file src_rank takes dest promote_to action ls fl
    hf, ?_⟩
  unfold Board.disambiguate_move_internal Board.disambiguate_normal
  simp only [Bind.bind, Except.bind, hl, hf]
  cases fl with
  | nil => rfl
  | cons a tail => cases tail <;> rfl

/-- The castling-rights update rule of the amended claim C4, per wing by
name: the moved piece — as it stands after any promotion — clears both of
its side's rights when it is a king, and clears its side's queenside or
kingside right when it is a rook moving from file a or file h respectively,
regardless of rank; no other move, and no capture, changes any right. -/
def amended_rights (r : CastlingRights) (kind : PieceKind) (colour : PieceColour)
    (src_file : Nat) : CastlingRights :=
  match kind, colour with
  | .King, .White => { r with r0 := false, r1 := false }
  | .King, .Black => { r with r2 := false, r3 := false }
  | .Rook, .White =>
      if src_file = 0 then { r with r1 := false }
      else if src_file = 7 then { r with r0 := false }
      else r
  | .Rook, .Black =>
      if src_file = 0 then { r with r3 := false }
      else if src_file = 7 then { r with r2 := false }
      else r
  | _, _ => r

theorem amended_rights_eq (r : CastlingRights) (kind : PieceKind) (colour : PieceColour)
    (src_file : Nat) :
    rights_update r kind colour src_file = amended_rights r kind colour src_file := by
  unfold rights_update amended_rights castling_right_offset
  cases kind <;> cases colour <;> (try rfl) <;>
    simp only [] <;> (repeat' split) <;>
    simp_all [CastlingRights.set, beq_iff_eq]

/-- C4 (amended): after a successful `move_piece`, the castling rights are
exactly `amended_rights` of the previous rights — cleared when the moved
piece (after any promotion) is the side's king, or is a rook moving from
file a or h regardless of rank; a capture of a rook on its home square does
not clear any right. -/
theorem C4_castling_update (b : Board) (m : SimpleMove) (b' : Board) (p : ChessPiece)
    (h : b.move_piece m = .ok b') (hp : b.get_piece m.src = .ok p) :
    b'.castling_rights =
      amended_rights b.castling_rights (m.promote_to.getD p.kind) p.colour m.src.file := by
  obtain ⟨i, hidx, _, hrights⟩ := move_piece_shape b m b' h
  have hgot := get_piece_of_idx b m.src i hidx
  rw [hp] at hgot
  injection hgot with hgot
  rw [hrights, ← hgot, amended_rights_eq]

/-- C5 (amended): every successful `move_piece` appends the pre-move digest
to the repetition log unconditionally — irreversible moves included — so
the log is never cleared and grows by one on every move. -/
theorem C5_history_growth (b : Board) (m : SimpleMove) (b' : Board)
    (h : b.move_piece m = .ok b') :
    b'.board_history = b.board_history ++ [b.hash_board_state] ∧
    b'.board_history.length = b.board_history.length + 1 := by
  obtain ⟨i, _, hhist, _⟩ := move_piece_shape b m b' h
  exact ⟨hhist, by rw [hhist]; simp⟩

theorem cellSquare_injective :
    ∀ ij ij' : Fin 8 × Fin 8, cellSquare ij = cellSquare ij' → ij = ij' := by
  intro ⟨i, j⟩ ⟨i', j'⟩ h
  unfold cellSquare at h
  have hfile : (j : Nat) = (j' : Nat) := congrArg SimpleSquare.file h
  have hrank : 7 - (i : Nat) = 7 - (i' : Nat) := congrArg SimpleSquare.rank h
  have hi : (i : Nat) = (i' : Nat) := by
    have h1 : (i : Nat) ≤ 7 := Nat.le_of_lt_succ i.isLt
    have h2 : (i' : Nat) ≤ 7 := Nat.le_of_lt_succ i'.isLt
    omega
  have : i = i' := Fin.ext hi
  have : j = j' := Fin.ext hfile
  simp_all

theorem cellFilter_eq (L : Layout) (ij : Fin 8 × Fin 8) :
    (cellPieces L ij).filter (fun q => q.square == cellSquare ij) = cellPieces L ij := by
  unfold cellPieces
  cases L ij.1 ij.2 <;> simp

theorem cellFilter_ne (L : Layout) (ij ij' : Fin 8 × Fin 8) (h : ij ≠ ij') :
    (cellPieces L ij).filter (fun q => q.square == cellSquare ij') = [] := by
  unfold cellPieces
  cases L ij.1 ij.2 with
  | none => simp
  | some p =>
      have : cellSquare ij ≠ cellSquare ij' := fun hc => h (cellSquare_injective _ _ hc)
      simp [this]

theorem flatMapFilter_nil (L : Layout) (ij : Fin 8 × Fin 8) :
    ∀ l : List (Fin 8 × Fin 8), ij ∉ l →
      (l.flatMap (fun a => (cellPieces L a).filter (fun q => q.square == cellSquare ij))) = [] := by
  intro l
  induction l with
  | nil => intro _; rfl
  | cons a rest ih =>
      intro hnot
      rw [List.flatMap_cons]
      have ha : a ≠ ij := fun hc => hnot (hc ▸ List.mem_cons_self ..)
      rw [cellFilter_ne L a ij ha, ih (fun hc => hnot (List.mem_cons_of_mem _ hc))]
      rfl

theorem flatMapFilter_single (L : Layout) (ij : Fin 8 × Fin 8) :
    ∀ l : List (Fin 8 × Fin 8), ij ∈ l → l.Nodup →
      (l.flatMap (fun a => (cellPieces L a).filter (fun q => q.square == cellSquare ij))) =
        cellPieces L ij := by
  intro l
  induction l with
  | nil => intro hmem; simp at hmem
  | cons a rest ih =>
      intro hmem hnodup
      rw [List.flatMap_cons]
      by_cases ha : a = ij
      · subst ha
        have hnotin : a ∉ rest := (List.nodup_cons.mp hnodup).1
        rw [cellFilter_eq, flatMapFilter_nil L a rest hnotin]
        simp
      · have hmem' : ij ∈ rest := by
          rcases List.mem_cons.mp hmem with hc | hr
          · exact absurd hc.symm ha
          · exact hr
        rw [cellFilter_ne L a ij ha, ih hmem' (List.nodup_cons.mp hnodup).2]
        rfl

theorem allCells_nodup : allCells.Nodup := by decide

theorem allCells_mem (ij : Fin 8 × Fin 8) : ij ∈ allCells := by
  unfold allCells
  rw [List.mem_flatMap]
  exact ⟨ij.1, List.mem_finRange _, List.mem_map.mpr ⟨ij.2, List.mem_finRange _, rfl⟩⟩

theorem piecesOfLayout_filter (L : Layout) (ij : Fin 8 × Fin 8) :
    (piecesOfLayout L).filter (fun q => q.square == cellSquare ij) = cellPieces L ij := by
  unfold piecesOfLayout
  rw [List.filter_flatMap]
  exact flatMapFilter_single L ij allCells (allCells_mem ij) allCells_nodup

theorem ofFen_get_piece (f : Fen) (ij : Fin 8 × Fin 8) :
    (Board.ofFen f).get_piece (cellSquare ij) =
      (match f.layout ij.1 ij.2 with
       | some piece => .ok (⟨cellSquare ij, piece.kind, piece.colour⟩ : ChessPiece)
       | none => .error (.chess (.PieceNotFound (cellSquare ij)))) := by
  unfold Board.get_piece Board.ofFen
  simp only []
  rw [piecesOfLayout_filter f.layout ij]
  unfold cellPieces
  cases f.layout ij.1 ij.2 <;> rfl

theorem ofFen_fenCell (f : Fen) (ij : Fin 8 × Fin 8) :
    (Board.ofFen f).fenCell ij = .ok ((f.layout ij.1 ij.2).map (fun p => ⟨p.kind, p.colour⟩)) := by
  unfold Board.fenCell
  rw [ofFen_get_piece f ij]
  cases f.layout ij.1 ij.2 <;> rfl

theorem mapM_ok {α β : Type} (g : α → RM β) (g' : α → β) :
    ∀ l : List α, (∀ a ∈ l, g a = .ok (g' a)) → l.mapM g = .ok (l.map g') := by
  intro l
  induction l with
  | nil => intro _; rfl
  | cons a rest ih =>
      intro hall
      rw [List.mapM_cons, hall a (List.mem_cons_self ..), ih (fun x hx =>
        hall x (List.mem_cons_of_mem _ hx))]
      rfl

theorem mapEta (o : Option SimplePiece) :
    o.map (fun p => (⟨p.kind, p.colour⟩ : SimplePiece)) = o := by
  cases o <;> rfl

/-- C6 (amended): parsing-side round trip — converting a FEN to a piece-list
board and reading the board back yields the same FEN, for every FEN; hence
`from_fen(to_fen(p)) = p` holds for every board freshly built from a FEN. -/
theorem C6_fen_roundtrip (f : Fen) : (Board.ofFen f).toFen = .ok f := by
  unfold Board.toFen
  have hinner : ∀ i : Fin 8,
      (List.finRange 8).mapM (fun j => (Board.ofFen f).fenCell (i, j)) =
        .ok ((List.finRange 8).map (fun j => f.layout i j)) := by
    intro i
    refine mapM_ok _ _ (List.finRange 8) ?_
    intro j _
    rw [ofFen_fenCell f (i, j)]
    exact congrArg Except.ok (mapEta _)
  have houter :
      (List.finRange 8).mapM
          (fun i => (List.finRange 8).mapM (fun j => (Board.ofFen f).fenCell (i, j))) =
        .ok ((List.finRange 8).map (fun i => (List.finRange 8).map (fun j => f.layout i j))) :=
    mapM_ok _ _ (List.finRange 8) (fun i _ => hinner i)
  simp only [Bind.bind, Except.bind, houter, pure, Except.pure]
  have hlayout :
      (fun (i j : Fin 8) =>
          (((List.finRange 8).map
              (fun i => (List.finRange 8).map (fun j => f.layout i j))).getD (i : Nat) []).getD
            (j : Nat) none) = f.layout := by
    funext i j
    fin_cases i <;> fin_cases j <;> rfl
  cases f with
  | mk layout turn castling_rights en_passant halfmove_clock fullmove_number =>
      simp only [] at hlayout
      simp [Board.ofFen, hlayout]

/-- Modelled from the spec: per-piece move generation as §4.3 describes it —
identical to `piece_plegal_moves` except that the spec attaches no
halfmove-clock or repetition condition to move generation ("generators
return the empty sequence for a piece of the wrong colour"). -/
def Board.spec_piece_moves (b : Board) (square : SimpleSquare) : RM (List SimpleMove) := do
  let piece ← b.get_piece square
  if piece.colour ≠ b.turn then
    pure []
  else
    match piece.kind with
    | .King => do
        let moves ← b.offset_moves piece.square piece.colour KING_PATTERN
        let castles ← b.castle_moves piece.colour
        pure (moves ++ castles)
    | .Queen => b.traversal_moves piece.square piece.colour QUEEN_DIRECTIONS
    | .Bishop => b.traversal_moves piece.square piece.colour (QUEEN_DIRECTIONS.take 4)
    | .Knight => b.offset_moves piece.square piece.colour KNIGHT_PATTERN
    | .Rook => b.traversal_moves piece.square piece.colour (QUEEN_DIRECTIONS.drop 4)
    | .Pawn => b.pawn_moves piece.square piece.colour

/-- Modelled from the spec: the whole-board generator of §4.3 over
`spec_piece_moves`. -/
def Board.spec_gather (b : Board) : List ChessPiece → RM (List SimpleMove)
  | [] => pure []
  | piece :: rest => do
      let here ← b.spec_piece_moves piece.square
      let more ← b.spec_gather rest
      pure (here ++ more)

/-- Modelled from the spec: `legal_moves(P)` of §4.5 — pseudo-legal moves
(without clock or repetition conditions) filtered by king safety. -/
def Board.spec_legal_moves (b : Board) : RM (List SimpleMove) := do
  let pls ← b.spec_gather (b.pieces.filter (fun piece => piece.colour == b.turn))
  b.keep_king_safe pls

/-- The board of the C2 counterexample: White king a1, White rook b3, Black
king h8, White to move, halfmove clock at 50 plies, empty repetition log. -/
def c2Board : Board :=
  { pieces := [⟨⟨0, 0⟩, .King, .White⟩, ⟨⟨1, 2⟩, .Rook, .White⟩, ⟨⟨7, 7⟩, .King, .Black⟩]
    turn := .White
    en_passant := none
    castling_rights := ⟨false, false, false, false⟩
    halfmove_clock := 50
    fullmove_number := 40
    board_history := [] }

/-- C2 counterexample: a position with moves available in the spec's sense,
king not attacked, halfmove clock 50 (below 100) and no prior repetitions is
classified `Stalemate` by the code, not `Normal` as the claim requires. -/
theorem C2_counterexample :
    Except.map List.isEmpty c2Board.spec_legal_moves = .ok false ∧
    c2Board.king_in_check .White = .ok false ∧
    c2Board.halfmove_clock = 50 ∧ c2Board.halfmove_clock < 100 ∧
    c2Board.board_history.count c2Board.hash_board_state = 0 ∧
    c2Board.state = .ok .Stalemate ∧ c2Board.state ≠ .ok .Normal := by
  refine ⟨by decide, by decide, by decide, by decide, by decide, by decide, by decide⟩

/-- The board of the C2 witness: White king a1, Black king h8, White to
move, all clocks fresh. -/
def kingsBoard : Board :=
  { pieces := [⟨⟨0, 0⟩, .King, .White⟩, ⟨⟨7, 7⟩, .King, .Black⟩]
    turn := .White
    en_passant := none
    castling_rights := ⟨false, false, false, false⟩
    halfmove_clock := 0
    fullmove_number := 1
    board_history := [] }

/-- The legal moves of `kingsBoard` (the White king's three steps). -/
def kingsMoves : List SimpleMove :=
  [⟨⟨0, 0⟩, ⟨1, 1⟩, none⟩, ⟨⟨0, 0⟩, ⟨0, 1⟩, none⟩, ⟨⟨0, 0⟩, ⟨1, 0⟩, none⟩]

theorem C2_witness :
    kingsBoard.state =
      .ok (if kingsMoves.isEmpty then (if false then .Checkmate else .Stalemate)
        else (if false then .Check else .Normal)) :=
  (C2_state_classification kingsBoard).1 kingsMoves false (by decide) (by decide)

theorem C1_witness :
    (∀ m, m ∈ kingsMoves ↔ (m ∈ kingsMoves ∧
      ∃ b2, kingsBoard.move_piece m = .ok b2 ∧
        b2.king_in_check kingsBoard.turn = .ok false)) ∧
    (∀ m, m ∈ kingsMoves ↔ (m ∈ kingsMoves ∧
      ∃ b2, kingsBoard.move_piece m = .ok b2 ∧
        b2.king_in_check kingsBoard.turn = .ok false)) ∧
    (∀ m, kingsBoard.is_move_legal m = .ok true ↔
      (kingsBoard.is_move_plegal m = .ok true ∧
        ∃ b2, kingsBoard.move_piece m = .ok b2 ∧
          b2.king_in_check kingsBoard.turn = .ok false)) ∧
    (∀ m b2, m ∈ kingsMoves → kingsBoard.move_piece m = .ok b2 →
      b2.king_in_check kingsBoard.turn = .ok false) :=
  C1_legality_filter kingsBoard ⟨0, 0⟩ kingsMoves kingsMoves kingsMoves kingsMoves
    (by decide) (by decide) (by decide) (by decide)

/-- The board of the C3 counterexample: White king e1, White pawn e5, Black
pawn d5 just double-pushed (en-passant target d6), Black king e8, White to
move. -/
def c3Board : Board :=
  { pieces := [⟨⟨4, 0⟩, .King, .White⟩, ⟨⟨4, 4⟩, .Pawn, .White⟩,
               ⟨⟨3, 4⟩, .Pawn, .Black⟩, ⟨⟨4, 7⟩, .King, .Black⟩]
    turn := .White
    en_passant := some ⟨3, 5⟩
    castling_rights := ⟨false, false, false, false⟩
    halfmove_clock := 0
    fullmove_number := 3
    board_history := [] }

/-- The en-passant capture written with the capture marker: `exd6`. -/
def c3Amb : AmbiguousMove := .Normal .Pawn (some 4) none true ⟨3, 5⟩ none none

/-- C3 counterexample: the en-passant capture e5xd6 is legal and its
destination square d6 is empty, yet disambiguating `exd6` returns the
`ImpossibleMove` error instead of the en-passant move. -/
theorem C3_counterexample :
    c3Board.is_move_legal ⟨⟨4, 4⟩, ⟨3, 5⟩, none⟩ = .ok true ∧
    c3Board.en_passant = some ⟨3, 5⟩ ∧
    c3Board.get_piece ⟨3, 5⟩ = .error (.chess (.PieceNotFound ⟨3, 5⟩)) ∧
    c3Board.disambiguate_move_internal c3Amb = .error (.chess (.ImpossibleMove c3Amb)) := by
  refine ⟨by decide, by decide, by decide, by decide⟩

/-- The legal moves of `kingsBoard` reduced to the king step to a2 by the
C3 witness filter. -/
def c3WitnessAmb : List SimpleMove := [⟨⟨0, 0⟩, ⟨0, 1⟩, none⟩]

theorem C3_witness :
    (∀ m, m ∈ c3WitnessAmb ↔ (m ∈ kingsMoves ∧
      disamb_match_spec kingsBoard .King none none false ⟨0, 1⟩ none none m)) ∧
    kingsBoard.disambiguate_move_internal (.Normal .King none none false ⟨0, 1⟩ none none) =
      (match c3WitnessAmb with
       | [] => .error (.chess (.ImpossibleMove (.Normal .King none none false ⟨0, 1⟩ none none)))
       | [m] => .ok m
       | _ => .error (.chess (.AmbiguousMoveErr
           (.Normal .King none none false ⟨0, 1⟩ none none)))) :=
  C3_disambiguation kingsBoard .King none none false ⟨0, 1⟩ none none kingsMoves c3WitnessAmb
    (by decide) (by decide)

/-- The board of the C4 counterexample: a White rook on a5, far from its
home square, with all castling rights set. -/
def c4Board : Board :=
  { pieces := [⟨⟨4, 0⟩, .King, .White⟩, ⟨⟨0, 4⟩, .Rook, .White⟩, ⟨⟨4, 7⟩, .King, .Black⟩]
    turn := .White
    en_passant := none
    castling_rights := ⟨true, true, true, true⟩
    halfmove_clock := 0
    fullmove_number := 1
    board_history := [] }

/-- C4 counterexample: the rook move a5-a6 starts on file a but not on the
back rank and captures nothing, yet it clears White's queenside castling
right. -/
theorem C4_counterexample :
    Except.map Board.castling_rights (c4Board.move_piece ⟨⟨0, 4⟩, ⟨0, 5⟩, none⟩) =
      .ok ⟨true, false, true, true⟩ ∧
    (⟨0, 4⟩ : SimpleSquare) ≠ ⟨0, 0⟩ ∧
    c4Board.get_piece ⟨0, 5⟩ = .error (.chess (.PieceNotFound ⟨0, 5⟩)) ∧
    Except.map Board.castling_rights (c4Board.move_piece ⟨⟨0, 4⟩, ⟨0, 5⟩, none⟩) ≠
      .ok c4Board.castling_rights := by
  refine ⟨by decide, by decide, by decide, by decide⟩

theorem C4_witness :
    ∃ b2, c4Board.move_piece ⟨⟨0, 4⟩, ⟨0, 5⟩, none⟩ = .ok b2 ∧
      b2.castling_rights = amended_rights c4Board.castling_rights .Rook .White 0 := by
  cases hmv : c4Board.move_piece ⟨⟨0, 4⟩, ⟨0, 5⟩, none⟩ with
  | error e =>
      exfalso
      have h2 : (c4Board.move_piece ⟨⟨0, 4⟩, ⟨0, 5⟩, none⟩).isOk = true := by decide
      rw [hmv] at h2
      exact absurd h2 (by simp [Except.isOk, Except.toBool])
  | ok b2 =>
      exact ⟨b2, rfl,
        C4_castling_update c4Board ⟨⟨0, 4⟩, ⟨0, 5⟩, none⟩ b2 ⟨⟨0, 4⟩, .Rook, .White⟩ hmv
          (by decide)⟩

/-- The board of the C5 counterexample: a White pawn about to capture, with
a positive halfmove clock and an empty repetition log. -/
def c5Board : Board :=
  { pieces := [⟨⟨4, 0⟩, .King, .White⟩, ⟨⟨3, 3⟩, .Pawn, .White⟩,
               ⟨⟨4, 4⟩, .Pawn, .Black⟩, ⟨⟨4, 7⟩, .King, .Black⟩]
    turn := .White
    en_passant := none
    castling_rights := ⟨false, false, false, false⟩
    halfmove_clock := 5
    fullmove_number := 10
    board_history := [] }

/-- C5 counterexample: the pawn capture d4xe5 is irreversible (a capture and
a pawn move), yet the repetition log is not cleared — it grows to length 1
while the halfmove clock resets to 0, so the log exceeds the clock. -/
theorem C5_counterexample :
    Except.map (fun b2 => (b2.board_history.length, b2.halfmove_clock))
        (c5Board.move_piece ⟨⟨3, 3⟩, ⟨4, 4⟩, none⟩) = .ok (1, 0) ∧
    (1 : Nat) > 0 := by
  refine ⟨by decide, by decide⟩

theorem C5_witness :
    ∃ b2, c5Board.move_piece ⟨⟨3, 3⟩, ⟨4, 4⟩, none⟩ = .ok b2 ∧
      b2.board_history = c5Board.board_history ++ [c5Board.hash_board_state] ∧
      b2.board_history.length = c5Board.board_history.length + 1 := by
  cases hmv : c5Board.move_piece ⟨⟨3, 3⟩, ⟨4, 4⟩, none⟩ with
  | error e =>
      exfalso
      have h2 : (c5Board.move_piece ⟨⟨3, 3⟩, ⟨4, 4⟩, none⟩).isOk = true := by decide
      rw [hmv] at h2
      exact absurd h2 (by simp [Except.isOk, Except.toBool])
  | ok b2 =>
      obtain ⟨ha, hb⟩ := C5_history_growth c5Board ⟨⟨3, 3⟩, ⟨4, 4⟩, none⟩ b2 hmv
      exact ⟨b2, rfl, ha, hb⟩

/-- The board one legal move after the starting position: knight g1 to f3,
applied through the legality-checked entry point. -/
def c6Board : RM Board := do
  let b0 ← Board.starting_board
  b0.move_piece_legal ⟨⟨6, 0⟩, ⟨5, 2⟩, none⟩

/-- C6 counterexample: for the position reached by the legal move Ng1-f3
from the starting position, converting to FEN and back does not reproduce
the board — the round trip drops the repetition log and reorders the piece
list. -/
theorem C6_counterexample :
    Except.map (fun b1 => decide (Except.map Board.ofFen b1.toFen = .ok b1)) c6Board =
      .ok false ∧
    Except.map (fun b1 => b1.board_history.length) c6Board = .ok 1 := by
  refine ⟨by decide, by decide⟩

/-- The five-ply legal sequence of the C7 counterexample:
1. e4 a6 2. e5 d5 3. exd6 (en passant). -/
def c7Moves : List SimpleMove :=
  [⟨⟨4, 1⟩, ⟨4, 3⟩, none⟩, ⟨⟨0, 6⟩, ⟨0, 5⟩, none⟩, ⟨⟨4, 3⟩, ⟨4, 4⟩, none⟩,
   ⟨⟨3, 6⟩, ⟨3, 4⟩, none⟩, ⟨⟨4, 4⟩, ⟨3, 5⟩, none⟩]

/-- Apply a move sequence through the piece-list legality-checked entry
point. -/
def applyLegalSeq (b : Board) : List SimpleMove → RM Board
  | [] => pure b
  | m :: rest => do
      let b2 ← b.move_piece_legal m
      applyLegalSeq b2 rest

/-- Apply the same move sequence to the bitboard (which has no legality
checker of its own). -/
def applyBitSeq (b : BitBoard) : List SimpleMove → RM BitBoard
  | [] => pure b
  | m :: rest => do
      let b2 ← b.move_piece ⟨BitSquare.new m.src.file m.src.rank,
        BitSquare.new m.dest.file m.dest.rank, m.promote_to⟩
      applyBitSeq b2 rest

/-- The piece-list board after the C7 sequence. -/
def c7PieceList : RM Board := do
  let b0 ← Board.starting_board
  applyLegalSeq b0 c7Moves

/-- The bitboard after the C7 sequence, starting from the same FEN. -/
def c7Bit : RM BitBoard :=
  match pFen startingFenStr with
  | some (_, f) => applyBitSeq (BitBoard.ofFen f) c7Moves
  | none => .error (.chess .InvalidFEN)

/-- C7 counterexample: after the legal sequence 1. e4 a6 2. e5 d5 3. exd6
(en passant), applied to both representations built from the same starting
FEN, the piece placements differ on d5 — the piece list removed the
bypassed black pawn, the bitboard did not. -/
theorem C7_counterexample :
    Except.map (fun (b : Board) => b.get_piece ⟨3, 4⟩) c7PieceList =
      .ok (.error (.chess (.PieceNotFound ⟨3, 4⟩))) ∧
    Except.map (fun (b : BitBoard) => b.pieces.get_piece (BitSquare.new 3 4)) c7Bit =
      .ok (.ok ⟨.Pawn, .Black⟩) := by
  refine ⟨by decide, by decide⟩

/-- Square-by-square agreement of the two representations' piece
placements. -/
def placementsAgree (cb : Board) (bb : BitBoard) : Bool :=
  allCells.all (fun ij =>
    match cb.get_piece (cellSquare ij),
        bb.pieces.get_piece (BitSquare.new (cellSquare ij).file (cellSquare ij).rank) with
    | .ok p, .ok q => (⟨p.kind, p.colour⟩ : SimplePiece) == q
    | .error (.chess (.PieceNotFound _)), .error (.chess (.PieceNotFound _)) => true
    | _, _ => false)

/-- C7 (amended): built from the same starting FEN, the piece-list board and
the bitboard agree on the piece placement of every square; the equivalence
stops there — the bitboard has no legal-move generation or FEN rendering,
and move application diverges (see the counterexample). -/
theorem C7_initial_agreement :
    (match pFen startingFenStr with
     | some (_, f) => placementsAgree (Board.ofFen f) (BitBoard.ofFen f)
     | none => false) = true := by decide

/-- The board of the C8 failing input: White king on a8 (rank 7), Black
king on h1, exactly one king of each colour. -/
def c8Board : Board :=
  { pieces := [⟨⟨0, 7⟩, .King, .White⟩, ⟨⟨7, 0⟩, .King, .Black⟩]
    turn := .White
    en_passant := none
    castling_rights := ⟨false, false, false, false⟩
    halfmove_clock := 0
    fullmove_number := 1
    board_history := [] }

/-- C8: on a board with exactly one king of each colour and the White king
on the 8th rank, `king_in_check` — and therefore `state` — hits the
`SimpleSquare` rank assertion inside the pawn super-piece probe and panics
instead of returning a `Result`. -/
theorem C8_panic :
    (c8Board.pieces.filter (fun p => p.kind == .King && p.colour == .White)).length = 1 ∧
    (c8Board.pieces.filter (fun p => p.kind == .King && p.colour == .Black)).length = 1 ∧
    c8Board.king_in_check .White = .error .panicErr ∧
    c8Board.state = .error .panicErr ∧
    c8Board.pawn_moves ⟨0, 7⟩ .White = .error .panicErr := by
  refine ⟨by decide, by decide, by decide, by decide, by decide⟩

/-- C9 counterexample: parsing a FEN that omits the two optional trailing
fields succeeds with fullmove number 0, not 1. -/
theorem C9_counterexample :
    (pFen "8/8/8/8/8/8/8/8 w - -".toList).map
        (fun rf => (rf.1, rf.2.halfmove_clock, rf.2.fullmove_number)) =
      some ([], 0, 0) ∧ (0 : Nat) ≠ 1 := by
  refine ⟨by decide, by decide⟩

/-- C9 (amended): whenever the input is exhausted after the en-passant field
and its trailing whitespace, FEN parsing succeeds and both optional fields
default to 0 — the halfmove clock and the fullmove number. -/
theorem C9_defaults (input : List Char) (L : Layout) (t : PieceColour) (c : CastlingRights)
    (e : Option SimpleSquare) (h : fenAfterEp input = some ([], (L, t, c, e))) :
    pFen input = some ([],
      { layout := L, turn := t, castling_rights := c, en_passant := e,
        halfmove_clock := 0, fullmove_number := 0 }) := by
  unfold pFen
  simp only [Bind.bind, Option.bind, h]
  rfl

theorem C9_witness :
    ∃ L t c e, fenAfterEp "8/8/8/8/8/8/8/8 w - -".toList = some ([], (L, t, c, e)) ∧
      pFen "8/8/8/8/8/8/8/8 w - -".toList = some ([],
        { layout := L, turn := t, castling_rights := c, en_passant := e,
          halfmove_clock := 0, fullmove_number := 0 }) := by
  cases hfe : fenAfterEp "8/8/8/8/8/8/8/8 w - -".toList with
  | none =>
      exfalso
      have h2 : (fenAfterEp "8/8/8/8/8/8/8/8 w - -".toList).isSome = true := by decide
      rw [hfe] at h2
      exact absurd h2 (by simp)
  | some pr =>
      obtain ⟨tail, L, t, c, e⟩ := pr
      have htail : tail = [] := by
        have h2 : (fenAfterEp "8/8/8/8/8/8/8/8 w - -".toList).map (fun pr => pr.1) =
            some [] := by decide
        rw [hfe] at h2
        simpa using h2
      subst htail
      exact ⟨L, t, c, e, rfl, C9_defaults _ L t c e hfe⟩

/-- C10 counterexample: the move parser accepts `e8=K` as a promotion to a
King, and `e8=` as a promotion to a Pawn. -/
theorem C10_counterexample :
    pChessMove "e8=K".toList =
      some ([], .Normal .Pawn none none false ⟨4, 7⟩ (some .King) none) ∧
    pChessMove "e8=".toList =
      some ([], .Normal .Pawn none none false ⟨4, 7⟩ (some .Pawn) none) := by
  refine ⟨by decide, by decide⟩

/-- C10 (amended): the promotion token is `=` followed by an *optional*
letter from QKNBR — King included — and when the letter is absent the
promotion piece defaults to Pawn, so the parsed promotion piece ranges over
all six kinds rather than only Queen, Rook, Bishop and Knight. -/
theorem C10_promotion_tokens (c : Char) (rest : List Char) (k : PieceKind)
    (h : (c = 'Q' ∧ k = .Queen) ∨ (c = 'K' ∧ k = .King) ∨ (c = 'N' ∧ k = .Knight) ∨
      (c = 'B' ∧ k = .Bishop) ∨ (c = 'R' ∧ k = .Rook)) :
    pPromotion ('=' :: c :: rest) = some (rest, k) ∧
    pPromotion ['='] = some ([], .Pawn) := by
  constructor
  · rcases h with ⟨hc, hk⟩ | ⟨hc, hk⟩ | ⟨hc, hk⟩ | ⟨hc, hk⟩ | ⟨hc, hk⟩ <;> subst hc <;>
      subst hk <;> rfl
  · rfl

theorem C10_witness :
    pPromotion ['=', 'K'] = some ([], .King) ∧ pPromotion ['='] = some ([], .Pawn) :=
  C10_promotion_tokens 'K' [] .King (Or.inr (Or.inl ⟨rfl, rfl⟩))

example :
    (match Board.starting_board with
     | .ok b => b.piece_plegal_moves ⟨4, 1⟩
     | .error e => .error e) =
    .ok [⟨⟨4, 1⟩, ⟨4, 2⟩, none⟩, ⟨⟨4, 1⟩, ⟨4, 3⟩, none⟩] := by decide

example :
    (match Board.from_fen "k3r3/1P6/4K3/8/8/8/8/8 w - - 0 2".toList with
     | .ok b => do
        let c1 ← b.king_in_check .White
        let c2 ← b.king_in_check .Black
        let st ← b.state
        pure (c1, c2, st)
     | .error e => .error e) = .ok (true, true, .Check) := by decide

example :
    (match Board.from_fen "rn1qkbnr/pppb1ppp/3p4/1B2p3/4P3/5N2/PPPP1PPP/RNBQK2R w KQkq - 0 1".toList with
     | .ok b => b.is_move_legal ⟨⟨4, 0⟩, ⟨6, 0⟩, none⟩
     | .error e => .error e) = .ok true := by decide

example :
    (match Board.from_fen "k3r3/8/4N3/8/4K3/8/8/8 w - - 0 2".toList with
     | .ok b => b.piece_legal_moves ⟨4, 5⟩
     | .error e => .error e) = .ok [] := by decide

example :
    (match Board.from_fen "rnbqkb1r/pppppppp/5n2/8/8/5N2/PPPPPPPP/RNBQKB1R w KQkq - 0 1".toList with
     | .ok b => Except.map Board.castling_rights (b.move_piece ⟨⟨7, 0⟩, ⟨6, 0⟩, none⟩)
     | .error e => .error e) = .ok ⟨false, true, true, true⟩ := by decide
